import Mathlib

/-!
# The shared physical page table of `kernel/shared_pages.c`

A shallow embedding of the shared-page table: a fixed array of 64 entries keyed by
`(dev, inum, offset)`, each holding a physical page address, a reference count and an
initialisation flag.

Modelling conventions.

* `uint dev, inum, offset` are natural numbers; the code only stores and compares them.
* `char *pa` is a natural number (an address); `0` is the null pointer, which is also the
  marker of a free slot.
* `int refcnt` and `int initialized` are integers; the results of `refcnt++` and `refcnt--`
  are reduced to the 32-bit two's complement range by `int32`, as the compiled code does.
  `initialized` only ever receives the constants 0 and 1.
* One claim asks for the reference count to be read as an unbounded integer: the variants
  `get_shared_page_unbounded`, `release_shared_page_unbounded`, `step_unbounded` and
  `run_unbounded` are the same code without the reduction, and are used for that claim only.
* `kalloc` is external: the value it would return is a parameter of `get_shared_page`
  (`0` when the allocator is exhausted).  Calls to `kalloc`, `kfree`, `acquire` and `release`
  are recorded, in program order, in the trace of every operation.
-/

set_option autoImplicit false

namespace SharedPages

/-! ## Data model -/

/-- The `struct shared_page_entry` of the source, without its spinlock. -/
structure shared_page_entry where
  dev : Nat
  inum : Nat
  offset : Nat
  pa : Nat
  refcnt : Int
  initialized : Int
deriving DecidableEq, Repr

/-- The array `shared_pages.entries[64]`. -/
abbrev Table := Fin 64 → shared_page_entry

/-- Calls to the lock primitives and to the page allocator made by an operation. -/
inductive Event where
  | acquire_table
  | release_table
  | acquire_entry (i : Fin 64)
  | release_entry (i : Fin 64)
  | kalloc (ret : Nat)
  | kfree (pa : Nat)
deriving DecidableEq, Repr

/-- What an operation leaves behind: its return value, the table and the calls it made. -/
structure Result (α : Type) where
  ret : α
  table : Table
  trace : List Event

/-- The value a 32-bit `int` holds after an arithmetic result `x`: `x` reduced modulo `2^32`
into the range from `-2147483648` to `2147483647`. -/
def int32 (x : Int) : Int := (x + 2147483648) % 4294967296 - 2147483648

/-! ## The operations -/

/-- The body of `shared_pages_init`: every slot gets `pa = 0`, `refcnt = 0`,
`initialized = 0`; `dev`, `inum` and `offset` are not written. -/
def shared_pages_init (t : Table) : Table :=
  fun i => { t i with pa := 0, refcnt := 0, initialized := 0 }

/-- The loop `for(int i = 0; i < 64; i++) if(p(i)) return i; return 0;`, started at index `i`
with `fuel` iterations left. -/
def scan_from (p : Fin 64 → Bool) : Nat → Nat → Option (Fin 64)
  | 0, _ => none
  | fuel + 1, i =>
    if h : i < 64 then
      if p ⟨i, h⟩ then some ⟨i, h⟩ else scan_from p fuel (i + 1)
    else none

/-- The full loop over the 64 slots. -/
def scan (p : Fin 64 → Bool) : Option (Fin 64) := scan_from p 64 0

/-- The function `find_shared_page`: first slot with `pa != 0` and the given identity. -/
def find_shared_page (t : Table) (dev inum offset : Nat) : Option (Fin 64) :=
  scan (fun i => decide ((t i).pa ≠ 0 ∧ (t i).dev = dev ∧ (t i).inum = inum ∧
    (t i).offset = offset))

/-- The function `alloc_shared_page_entry`: first slot with `pa == 0`. -/
def alloc_shared_page_entry (t : Table) : Option (Fin 64) :=
  scan (fun i => decide ((t i).pa = 0))

/-- The lookup loop shared by `mark_shared_page_initialized`, `is_shared_page_initialized`
and `release_shared_page`: first slot with `entries[i].pa == pa`. -/
def lookup_pa (t : Table) (pa : Nat) : Option (Fin 64) :=
  scan (fun i => decide ((t i).pa = pa))

/-- The function `get_shared_page`; `ka` is what `kalloc()` returns if it is called. -/
def get_shared_page (ka : Nat) (t : Table) (dev inum offset : Nat) : Result Nat :=
  match find_shared_page t dev inum offset with
  | some k =>
    { ret := (t k).pa
      table := Function.update t k { t k with refcnt := int32 ((t k).refcnt + 1) }
      trace := [.acquire_table, .acquire_entry k, .release_entry k, .release_table] }
  | none =>
    match alloc_shared_page_entry t with
    | none => { ret := 0, table := t, trace := [.acquire_table, .release_table] }
    | some k =>
      if ka = 0 then
        { ret := 0, table := t, trace := [.acquire_table, .kalloc ka, .release_table] }
      else
        { ret := ka
          table := Function.update t k
            { dev := dev, inum := inum, offset := offset, pa := ka, refcnt := 1,
              initialized := 0 }
          trace := [.acquire_table, .kalloc ka, .acquire_entry k, .release_entry k,
            .release_table] }

/-- The function `mark_shared_page_initialized`. -/
def mark_shared_page_initialized (t : Table) (pa : Nat) : Result Unit :=
  match lookup_pa t pa with
  | some k =>
    { ret := ()
      table := Function.update t k { t k with initialized := 1 }
      trace := [.acquire_table, .acquire_entry k, .release_entry k, .release_table] }
  | none => { ret := (), table := t, trace := [.acquire_table, .release_table] }

/-- The function `is_shared_page_initialized`. -/
def is_shared_page_initialized (t : Table) (pa : Nat) : Result Int :=
  match lookup_pa t pa with
  | some k =>
    { ret := (t k).initialized
      table := t
      trace := [.acquire_table, .acquire_entry k, .release_entry k, .release_table] }
  | none => { ret := 0, table := t, trace := [.acquire_table, .release_table] }

/-- The function `release_shared_page`. -/
def release_shared_page (t : Table) (pa : Nat) : Result Unit :=
  match lookup_pa t pa with
  | none => { ret := (), table := t, trace := [.acquire_table, .release_table] }
  | some k =>
    if int32 ((t k).refcnt - 1) = 0 then
      { ret := ()
        table := Function.update t k
          { dev := 0, inum := 0, offset := 0, pa := 0, refcnt := int32 ((t k).refcnt - 1),
            initialized := 0 }
        trace := [.acquire_table, .acquire_entry k, .kfree (t k).pa, .release_entry k,
          .release_table] }
    else
      { ret := ()
        table := Function.update t k { t k with refcnt := int32 ((t k).refcnt - 1) }
        trace := [.acquire_table, .acquire_entry k, .release_entry k, .release_table] }

/-- The function `get_shared_page` with `refcnt++` computed in the unbounded integers. -/
def get_shared_page_unbounded (ka : Nat) (t : Table) (dev inum offset : Nat) : Result Nat :=
  match find_shared_page t dev inum offset with
  | some k =>
    { ret := (t k).pa
      table := Function.update t k { t k with refcnt := (t k).refcnt + 1 }
      trace := [.acquire_table, .acquire_entry k, .release_entry k, .release_table] }
  | none =>
    match alloc_shared_page_entry t with
    | none => { ret := 0, table := t, trace := [.acquire_table, .release_table] }
    | some k =>
      if ka = 0 then
        { ret := 0, table := t, trace := [.acquire_table, .kalloc ka, .release_table] }
      else
        { ret := ka
          table := Function.update t k
            { dev := dev, inum := inum, offset := offset, pa := ka, refcnt := 1,
              initialized := 0 }
          trace := [.acquire_table, .kalloc ka, .acquire_entry k, .release_entry k,
            .release_table] }

/-- The function `release_shared_page` with `refcnt--` computed in the unbounded integers. -/
def release_shared_page_unbounded (t : Table) (pa : Nat) : Result Unit :=
  match lookup_pa t pa with
  | none => { ret := (), table := t, trace := [.acquire_table, .release_table] }
  | some k =>
    if (t k).refcnt - 1 = 0 then
      { ret := ()
        table := Function.update t k
          { dev := 0, inum := 0, offset := 0, pa := 0, refcnt := (t k).refcnt - 1,
            initialized := 0 }
        trace := [.acquire_table, .acquire_entry k, .kfree (t k).pa, .release_entry k,
          .release_table] }
    else
      { ret := ()
        table := Function.update t k { t k with refcnt := (t k).refcnt - 1 }
        trace := [.acquire_table, .acquire_entry k, .release_entry k, .release_table] }

/-! ## Sequences of calls -/

/-- One call of the interface, with the answer `kalloc` gives if `get_shared_page` asks. -/
inductive Op where
  | get (dev inum offset ka : Nat)
  | mark (pa : Nat)
  | is_init (pa : Nat)
  | release (pa : Nat)
deriving DecidableEq, Repr

/-- The table after one call. -/
def step (t : Table) : Op → Table
  | .get dev inum offset ka => (get_shared_page ka t dev inum offset).table
  | .mark pa => (mark_shared_page_initialized t pa).table
  | .is_init pa => (is_shared_page_initialized t pa).table
  | .release pa => (release_shared_page t pa).table

/-- The lock and allocator calls made by one call of the interface. -/
def trace_of (t : Table) : Op → List Event
  | .get dev inum offset ka => (get_shared_page ka t dev inum offset).trace
  | .mark pa => (mark_shared_page_initialized t pa).trace
  | .is_init pa => (is_shared_page_initialized t pa).trace
  | .release pa => (release_shared_page t pa).trace

/-- The table after a sequence of calls, first call first. -/
def run (t : Table) (ops : List Op) : Table := ops.foldl step t

/-- The table after one call, the reference count being an unbounded integer. -/
def step_unbounded (t : Table) : Op → Table
  | .get dev inum offset ka => (get_shared_page_unbounded ka t dev inum offset).table
  | .mark pa => (mark_shared_page_initialized t pa).table
  | .is_init pa => (is_shared_page_initialized t pa).table
  | .release pa => (release_shared_page_unbounded t pa).table

/-- The table after a sequence of calls, the reference count being an unbounded integer. -/
def run_unbounded (t : Table) (ops : List Op) : Table := ops.foldl step_unbounded t

/-- One call of a sequence that only takes and drops references to one identity: a
`get_shared_page(d, i, o)`, with the answer `kalloc` gives if asked, or a
`release_shared_page(h)`. -/
inductive RefCall where
  | get (ka : Nat)
  | release
deriving DecidableEq, Repr

/-- The interface call a `RefCall` stands for, given the identity and the handle. -/
def RefCall.to_op (d i o h : Nat) : RefCall → Op
  | .get ka => .get d i o ka
  | .release => .release h

/-- Number of `get_shared_page` calls of a sequence. -/
def count_gets : List RefCall → Nat
  | [] => 0
  | .get _ :: rest => count_gets rest + 1
  | .release :: rest => count_gets rest

/-- Number of `release_shared_page` calls of a sequence. -/
def count_releases : List RefCall → Nat
  | [] => 0
  | .get _ :: rest => count_releases rest
  | .release :: rest => count_releases rest + 1

/-- The handles returned by the `get_shared_page` calls of a sequence run from table `t`, in
order. -/
def get_returns (d i o h : Nat) : Table → List RefCall → List Nat
  | _, [] => []
  | t, .get ka :: rest =>
    (get_shared_page ka t d i o).ret ::
      get_returns d i o h (get_shared_page ka t d i o).table rest
  | t, .release :: rest => get_returns d i o h (release_shared_page t h).table rest

/-- The table after the first `n` calls `get_shared_page(ids 0)`, ..., `get_shared_page(ids
(n-1))`, where the allocator answers the call number `m` with `pages m`. -/
def fill (ids : Nat → Nat × Nat × Nat) (pages : Nat → Nat) (t : Table) : Nat → Table
  | 0 => t
  | n + 1 =>
    (get_shared_page (pages n) (fill ids pages t n) (ids n).1 (ids n).2.1 (ids n).2.2).table

/-! ## Properties of tables and traces -/

/-- Slot contents that are live (non-null `pa`) and carry the identity `(dev, inum, offset)`:
the condition tested by `find_shared_page`. -/
def has_identity (e : shared_page_entry) (dev inum offset : Nat) : Prop :=
  e.pa ≠ 0 ∧ e.dev = dev ∧ e.inum = inum ∧ e.offset = offset

instance (e : shared_page_entry) (dev inum offset : Nat) :
    Decidable (has_identity e dev inum offset) := by
  unfold has_identity; infer_instance

/-- The results of the `kalloc()` calls of a trace, in order. -/
def kalloc_calls (tr : List Event) : List Nat :=
  tr.filterMap (fun e => match e with
    | .kalloc p => some p
    | _ => none)

/-- The arguments of the `kfree()` calls of a trace, in order. -/
def kfree_calls (tr : List Event) : List Nat :=
  tr.filterMap (fun e => match e with
    | .kfree p => some p
    | _ => none)

/-- The allocator assumption for a sequence of calls started in table `t`: every page that a
`kalloc()` call of the sequence returns is, at the time of that call, not the `pa` of any live
slot. -/
def allocator_fresh : Table → List Op → Prop
  | _, [] => True
  | t, op :: rest =>
    (∀ p ∈ kalloc_calls (trace_of t op), ∀ j, (t j).pa ≠ 0 → (t j).pa ≠ p) ∧
      allocator_fresh (step t op) rest

/-- Slot `j` has the same `pa`, `dev`, `inum` and `offset` in both tables. -/
def same_key (t1 t2 : Table) (j : Fin 64) : Prop :=
  (t1 j).pa = (t2 j).pa ∧ (t1 j).dev = (t2 j).dev ∧ (t1 j).inum = (t2 j).inum ∧
    (t1 j).offset = (t2 j).offset

/-- Distinct live slots carry distinct identities. -/
def identity_unique (t : Table) : Prop :=
  ∀ i j, i ≠ j → (t i).pa ≠ 0 → (t j).pa ≠ 0 →
    ¬ ((t i).dev = (t j).dev ∧ (t i).inum = (t j).inum ∧ (t i).offset = (t j).offset)

/-- Distinct live slots hold distinct pages. -/
def pa_unique (t : Table) : Prop :=
  ∀ i j, i ≠ j → (t i).pa ≠ 0 → (t j).pa ≠ 0 → (t i).pa ≠ (t j).pa

/-- Slot `k` is the live entry of identity `(d, i, o)`, holds page `h` with count `c`, and no
other slot stores `h` or is a live entry of that identity. -/
def holds_entry (t : Table) (d i o h : Nat) (c : Int) (k : Fin 64) : Prop :=
  has_identity (t k) d i o ∧ (t k).pa = h ∧ (t k).refcnt = c ∧
    ∀ j, j ≠ k → (t j).pa ≠ h ∧ ¬ has_identity (t j) d i o

/-- The entry created by the call number `n` of `fill`. -/
def filled_entry (ids : Nat → Nat × Nat × Nat) (pages : Nat → Nat) (n : Nat) :
    shared_page_entry :=
  { dev := (ids n).1, inum := (ids n).2.1, offset := (ids n).2.2, pa := pages n, refcnt := 1,
    initialized := 0 }

/-- The locks held at a point of a trace: whether `shared_pages.lock` is held, and the slot
whose entry lock is held, if any. -/
structure LockState where
  table : Bool
  entry : Option (Fin 64)
deriving DecidableEq, Repr

/-- The effect of one event on the held locks; `none` when the event breaks the discipline:
the table lock is taken while already held, an entry lock is taken without the table lock or
while another entry lock is held, a lock is released that is not held, or the table lock is
released while an entry lock is still held. -/
def lock_step (s : LockState) : Event → Option LockState
  | .acquire_table => if s.table = true then none else some { s with table := true }
  | .release_table =>
    if s.table = true ∧ s.entry = none then some { s with table := false } else none
  | .acquire_entry i =>
    if s.table = true ∧ s.entry = none then some { s with entry := some i } else none
  | .release_entry i => if s.entry = some i then some { s with entry := none } else none
  | .kalloc _ => some s
  | .kfree _ => some s

/-- The held locks after a whole trace, `none` if some event broke the discipline. -/
def lock_run : LockState → List Event → Option LockState
  | s, [] => some s
  | s, e :: rest =>
    match lock_step s e with
    | none => none
    | some s2 => lock_run s2 rest

/-- The locking discipline of one operation: its first event takes the table lock, the table
lock is taken exactly once, no event breaks the discipline of `lock_step`, and no lock is held
at the end. -/
def lock_discipline (tr : List Event) : Prop :=
  tr.head? = some Event.acquire_table ∧ tr.count Event.acquire_table = 1 ∧
    lock_run { table := false, entry := none } tr = some { table := false, entry := none }

/-- The lock and allocator calls of a whole sequence of calls started in table `t`. -/
def history : Table → List Op → List Event
  | _, [] => []
  | t, op :: rest => trace_of t op ++ history (step t op) rest

/-- The pages allocated and not yet freed, after one more event: a non-null `kalloc` result
is added, the argument of a `kfree` is removed. -/
def allocated_step (A : List Nat) : Event → List Nat
  | .kalloc p => if p = 0 then A else p :: A
  | .kfree p => A.filter (fun q => decide (q ≠ p))
  | _ => A

/-- The pages allocated and not yet freed after a trace, starting from the pages `A`. -/
def allocated (A : List Nat) (tr : List Event) : List Nat := tr.foldl allocated_step A

/-- The allocator only hands out pages that are not currently allocated: every `kalloc` of
the trace returns null or a page outside the pages allocated and not yet freed at that time. -/
def alloc_ok : List Nat → List Event → Prop
  | _, [] => True
  | A, e :: rest =>
    (match e with
      | .kalloc p => p = 0 ∨ p ∉ A
      | _ => True) ∧ alloc_ok (allocated_step A e) rest

/-- Deciding `alloc_ok` by running along the trace. -/
def alloc_ok_decidable : (A : List Nat) → (tr : List Event) → Decidable (alloc_ok A tr)
  | _, [] => isTrue trivial
  | _, .acquire_table :: rest =>
    @instDecidableAnd _ _ (isTrue trivial) (alloc_ok_decidable _ rest)
  | _, .release_table :: rest =>
    @instDecidableAnd _ _ (isTrue trivial) (alloc_ok_decidable _ rest)
  | _, .acquire_entry _ :: rest =>
    @instDecidableAnd _ _ (isTrue trivial) (alloc_ok_decidable _ rest)
  | _, .release_entry _ :: rest =>
    @instDecidableAnd _ _ (isTrue trivial) (alloc_ok_decidable _ rest)
  | A, .kalloc p :: rest =>
    @instDecidableAnd (p = 0 ∨ p ∉ A) _ inferInstance (alloc_ok_decidable _ rest)
  | _, .kfree _ :: rest =>
    @instDecidableAnd _ _ (isTrue trivial) (alloc_ok_decidable _ rest)

instance (A : List Nat) (tr : List Event) : Decidable (alloc_ok A tr) :=
  alloc_ok_decidable A tr

/-- Table `t` and the allocated pages `A` agree: distinct live slots hold distinct pages, and
the pages of live slots are exactly the pages of `A`. -/
def conserved (t : Table) (A : List Nat) : Prop :=
  pa_unique t ∧ ∀ p, p ∈ A ↔ ∃ i, (t i).pa ≠ 0 ∧ (t i).pa = p

/-- The neutral contents of a slot: every field zero. -/
def neutral_entry : shared_page_entry :=
  { dev := 0, inum := 0, offset := 0, pa := 0, refcnt := 0, initialized := 0 }

/-! ## Sample tables and call sequences -/

/-- The contents of the table in static storage before anything ran: all zero. -/
def zero_table : Table :=
  fun _ => { dev := 0, inum := 0, offset := 0, pa := 0, refcnt := 0, initialized := 0 }

/-- A table with one live entry, in slot 2, for identity `(5, 12, 4096)` with two references. -/
def sample_table : Table :=
  Function.update zero_table 2
    { dev := 5, inum := 12, offset := 4096, pa := 8192, refcnt := 2, initialized := 1 }

/-- The table `sample_table` with the count of its live entry at `INT_MAX`. -/
def int_max_table : Table :=
  Function.update zero_table 2
    { dev := 5, inum := 12, offset := 4096, pa := 8192, refcnt := 2147483647,
      initialized := 1 }

/-- A table whose 64 slots are all live: slot `i` holds identity `(1, i, 0)` and page
`4096 * (i + 1)`. -/
def full_table : Table :=
  fun i => { dev := 1, inum := i.val, offset := 0, pa := 4096 * (i.val + 1), refcnt := 1,
             initialized := 0 }

/-- A short history: two identities are created, the first is taken a second time and marked,
and the null handle is released once. -/
def sample_ops : List Op :=
  [.get 1 1 0 4096, .get 1 2 0 8192, .get 1 1 0 12288, .mark 4096, .release 0]

/-- The table reached from `shared_pages_init` on zeroed storage by one call
`mark_shared_page_initialized(0)`: the null handle matches free slot 0, whose `initialized`
becomes 1. -/
def marked_null_table : Table := run (shared_pages_init zero_table) [.mark 0]

/-- Witness identities for C9: identity number `n` is `(1, n, 0)`. -/
def sample_ids (n : Nat) : Nat × Nat × Nat := (1, n, 0)

/-- Witness pages for C9: the allocator answers call number `n` with `4096 * (n + 1)`. -/
def sample_pages (n : Nat) : Nat := 4096 * (n + 1)

/-- The witness sequence for C4: create, take again, drop once, take again. -/
def sample_calls : List RefCall := [.get 4096, .get 0, .release, .get 0]

/-- The table `sample_table` with slot 0 made live for identity `(1, 1, 0)` on the same page
8192 as slot 2: two live entries sharing one page. -/
def shared_page_table : Table :=
  Function.update sample_table 0
    { dev := 1, inum := 1, offset := 0, pa := 8192, refcnt := 1, initialized := 0 }

/-- The table reached from `shared_pages_init` on zeroed storage by 4294967295 calls
`release_shared_page(0)`. -/
def null_release_table : Table :=
  run (shared_pages_init zero_table) (List.replicate 4294967295 (.release 0))

/-- A sequence of 2147483648 calls `get_shared_page(d, i, o)`: the first is answered by
`kalloc` with page 4096, the others find the entry. -/
def many_gets : List RefCall := .get 4096 :: List.replicate 2147483647 (.get 0)

/-! ## The scan loop -/

theorem scan_from_some (p : Fin 64 → Bool) (fuel : Nat) :
    ∀ (i : Nat) (k : Fin 64), scan_from p fuel i = some k →
      p k = true ∧ i ≤ k.val ∧ ∀ j : Fin 64, i ≤ j.val → j < k → p j = false := by
  induction fuel with
  | zero => intro i k h; simp [scan_from] at h
  | succ n ih =>
    intro i k h
    unfold scan_from at h
    split at h
    · rename_i hi
      split at h
      · rename_i hp
        cases h
        refine ⟨hp, le_refl _, ?_⟩
        intro j hj hjk
        exact absurd hjk (by simp [Fin.lt_def]; omega)
      · rename_i hp
        obtain ⟨h1, h2, h3⟩ := ih (i + 1) k h
        refine ⟨h1, by omega, ?_⟩
        intro j hj hjk
        by_cases hji : j.val = i
        · have : j = ⟨i, hi⟩ := Fin.ext hji
          subst this
          simpa using hp
        · exact h3 j (by omega) hjk
    · cases h

theorem scan_from_none (p : Fin 64 → Bool) (fuel : Nat) :
    ∀ (i : Nat), scan_from p fuel i = none → 64 ≤ i + fuel →
      ∀ j : Fin 64, i ≤ j.val → p j = false := by
  induction fuel with
  | zero => intro i _ hle j hj; have := j.isLt; omega
  | succ n ih =>
    intro i h hle j hj
    unfold scan_from at h
    split at h
    · rename_i hi
      split at h
      · cases h
      · rename_i hp
        by_cases hji : j.val = i
        · have : j = ⟨i, hi⟩ := Fin.ext hji
          subst this
          simpa using hp
        · exact ih (i + 1) h (by omega) j (by omega)
    · have := j.isLt; omega

theorem scan_eq_none_iff (p : Fin 64 → Bool) :
    scan p = none ↔ ∀ j, p j = false := by
  constructor
  · intro h j
    exact scan_from_none p 64 0 h (by omega) j (Nat.zero_le _)
  · intro h
    cases hs : scan p with
    | none => rfl
    | some k =>
      have := (scan_from_some p 64 0 k hs).1
      rw [h k] at this
      cases this

theorem scan_eq_some_iff (p : Fin 64 → Bool) (k : Fin 64) :
    scan p = some k ↔ p k = true ∧ ∀ j, j < k → p j = false := by
  constructor
  · intro h
    obtain ⟨h1, _, h3⟩ := scan_from_some p 64 0 k h
    exact ⟨h1, fun j hj => h3 j (Nat.zero_le _) hj⟩
  · rintro ⟨h1, h2⟩
    cases hs : scan p with
    | none =>
      have := (scan_eq_none_iff p).1 hs k
      rw [h1] at this
      cases this
    | some k2 =>
      obtain ⟨g1, _, g3⟩ := scan_from_some p 64 0 k2 hs
      rcases lt_trichotomy k2 k with hlt | heq | hgt
      · rw [h2 k2 hlt] at g1; cases g1
      · rw [heq]
      · rw [g3 k (Nat.zero_le _) hgt] at h1; cases h1

theorem scan_exists (p : Fin 64 → Bool) (h : ∃ j, p j = true) : ∃ k, scan p = some k := by
  cases hs : scan p with
  | some k => exact ⟨k, rfl⟩
  | none =>
    obtain ⟨j, hj⟩ := h
    rw [(scan_eq_none_iff p).1 hs j] at hj
    cases hj

/-! ## The three lookups -/

theorem find_shared_page_eq_some_iff (t : Table) (dev inum offset : Nat) (k : Fin 64) :
    find_shared_page t dev inum offset = some k ↔
      has_identity (t k) dev inum offset ∧ ∀ j, j < k → ¬ has_identity (t j) dev inum offset := by
  unfold find_shared_page has_identity
  rw [scan_eq_some_iff]
  simp only [decide_eq_true_eq, decide_eq_false_iff_not]

theorem find_shared_page_eq_none_iff (t : Table) (dev inum offset : Nat) :
    find_shared_page t dev inum offset = none ↔ ∀ j, ¬ has_identity (t j) dev inum offset := by
  unfold find_shared_page has_identity
  rw [scan_eq_none_iff]
  simp only [decide_eq_false_iff_not]

theorem alloc_shared_page_entry_eq_some_iff (t : Table) (k : Fin 64) :
    alloc_shared_page_entry t = some k ↔ (t k).pa = 0 ∧ ∀ j, j < k → (t j).pa ≠ 0 := by
  unfold alloc_shared_page_entry
  rw [scan_eq_some_iff]
  simp only [decide_eq_true_eq, decide_eq_false_iff_not, ne_eq]

theorem alloc_shared_page_entry_eq_none_iff (t : Table) :
    alloc_shared_page_entry t = none ↔ ∀ j, (t j).pa ≠ 0 := by
  unfold alloc_shared_page_entry
  rw [scan_eq_none_iff]
  simp only [decide_eq_false_iff_not, ne_eq]

theorem lookup_pa_eq_some_iff (t : Table) (pa : Nat) (k : Fin 64) :
    lookup_pa t pa = some k ↔ (t k).pa = pa ∧ ∀ j, j < k → (t j).pa ≠ pa := by
  unfold lookup_pa
  rw [scan_eq_some_iff]
  simp only [decide_eq_true_eq, decide_eq_false_iff_not, ne_eq]

theorem lookup_pa_eq_none_iff (t : Table) (pa : Nat) :
    lookup_pa t pa = none ↔ ∀ j, (t j).pa ≠ pa := by
  unfold lookup_pa
  rw [scan_eq_none_iff]
  simp only [decide_eq_false_iff_not, ne_eq]

theorem find_shared_page_exists (t : Table) (dev inum offset : Nat)
    (h : ∃ i, has_identity (t i) dev inum offset) :
    ∃ k, find_shared_page t dev inum offset = some k := by
  cases hs : find_shared_page t dev inum offset with
  | some k => exact ⟨k, rfl⟩
  | none =>
    obtain ⟨i, hi⟩ := h
    exact absurd hi ((find_shared_page_eq_none_iff t dev inum offset).1 hs i)

theorem alloc_shared_page_entry_exists (t : Table) (h : ∃ i, (t i).pa = 0) :
    ∃ k, alloc_shared_page_entry t = some k := by
  cases hs : alloc_shared_page_entry t with
  | some k => exact ⟨k, rfl⟩
  | none =>
    obtain ⟨i, hi⟩ := h
    exact absurd hi ((alloc_shared_page_entry_eq_none_iff t).1 hs i)

theorem lookup_pa_exists (t : Table) (pa : Nat) (h : ∃ i, (t i).pa = pa) :
    ∃ k, lookup_pa t pa = some k := by
  cases hs : lookup_pa t pa with
  | some k => exact ⟨k, rfl⟩
  | none =>
    obtain ⟨i, hi⟩ := h
    exact absurd hi ((lookup_pa_eq_none_iff t pa).1 hs i)

/-! ## Arithmetic of `int` -/

theorem int32_of_range (x : Int) (hlo : -2147483648 ≤ x) (hhi : x ≤ 2147483647) :
    int32 x = x := by
  unfold int32; omega

@[simp]
theorem int32_zero : int32 0 = 0 := by decide

@[simp]
theorem int32_one : int32 1 = 1 := by decide

theorem int32_range (x : Int) : -2147483648 ≤ int32 x ∧ int32 x ≤ 2147483647 := by
  unfold int32; omega

theorem int32_add_int32 (a b : Int) : int32 (int32 a + b) = int32 (a + b) := by
  unfold int32; omega

theorem int32_eq_zero_iff (x : Int) : int32 x = 0 ↔ x % 4294967296 = 0 := by
  unfold int32; omega

/-! ## The paths of the operations -/

theorem get_shared_page_of_find (ka : Nat) (t : Table) (dev inum offset : Nat) (k : Fin 64)
    (h : find_shared_page t dev inum offset = some k) :
    get_shared_page ka t dev inum offset =
      { ret := (t k).pa
        table := Function.update t k { t k with refcnt := int32 ((t k).refcnt + 1) }
        trace := [.acquire_table, .acquire_entry k, .release_entry k, .release_table] } := by
  simp [get_shared_page, h]

theorem get_shared_page_of_full (ka : Nat) (t : Table) (dev inum offset : Nat)
    (h : find_shared_page t dev inum offset = none) (hf : alloc_shared_page_entry t = none) :
    get_shared_page ka t dev inum offset =
      { ret := 0, table := t, trace := [.acquire_table, .release_table] } := by
  simp [get_shared_page, h, hf]

theorem get_shared_page_of_nomem (t : Table) (dev inum offset : Nat) (k : Fin 64)
    (h : find_shared_page t dev inum offset = none) (hf : alloc_shared_page_entry t = some k) :
    get_shared_page 0 t dev inum offset =
      { ret := 0, table := t, trace := [.acquire_table, .kalloc 0, .release_table] } := by
  simp [get_shared_page, h, hf]

theorem get_shared_page_of_alloc (ka : Nat) (t : Table) (dev inum offset : Nat) (k : Fin 64)
    (h : find_shared_page t dev inum offset = none) (hf : alloc_shared_page_entry t = some k)
    (hka : ka ≠ 0) :
    get_shared_page ka t dev inum offset =
      { ret := ka
        table := Function.update t k
          { dev := dev, inum := inum, offset := offset, pa := ka, refcnt := 1,
            initialized := 0 }
        trace := [.acquire_table, .kalloc ka, .acquire_entry k, .release_entry k,
          .release_table] } := by
  simp [get_shared_page, h, hf, hka]

theorem mark_shared_page_initialized_of_some (t : Table) (pa : Nat) (k : Fin 64)
    (h : lookup_pa t pa = some k) :
    mark_shared_page_initialized t pa =
      { ret := ()
        table := Function.update t k { t k with initialized := 1 }
        trace := [.acquire_table, .acquire_entry k, .release_entry k, .release_table] } := by
  simp [mark_shared_page_initialized, h]

theorem mark_shared_page_initialized_of_none (t : Table) (pa : Nat)
    (h : lookup_pa t pa = none) :
    mark_shared_page_initialized t pa =
      { ret := (), table := t, trace := [.acquire_table, .release_table] } := by
  simp [mark_shared_page_initialized, h]

theorem is_shared_page_initialized_table (t : Table) (pa : Nat) :
    (is_shared_page_initialized t pa).table = t := by
  unfold is_shared_page_initialized
  cases lookup_pa t pa <;> rfl

theorem release_shared_page_of_none (t : Table) (pa : Nat) (h : lookup_pa t pa = none) :
    release_shared_page t pa =
      { ret := (), table := t, trace := [.acquire_table, .release_table] } := by
  simp [release_shared_page, h]

theorem release_shared_page_of_last (t : Table) (pa : Nat) (k : Fin 64)
    (h : lookup_pa t pa = some k) (hz : int32 ((t k).refcnt - 1) = 0) :
    release_shared_page t pa =
      { ret := ()
        table := Function.update t k
          { dev := 0, inum := 0, offset := 0, pa := 0, refcnt := int32 ((t k).refcnt - 1),
            initialized := 0 }
        trace := [.acquire_table, .acquire_entry k, .kfree (t k).pa, .release_entry k,
          .release_table] } := by
  simp [release_shared_page, h, hz]

theorem release_shared_page_of_more (t : Table) (pa : Nat) (k : Fin 64)
    (h : lookup_pa t pa = some k) (hz : int32 ((t k).refcnt - 1) ≠ 0) :
    release_shared_page t pa =
      { ret := ()
        table := Function.update t k { t k with refcnt := int32 ((t k).refcnt - 1) }
        trace := [.acquire_table, .acquire_entry k, .release_entry k, .release_table] } := by
  simp [release_shared_page, h, hz]

/-! ## How one call changes the keys of the table -/

theorem same_key_update (t : Table) (k : Fin 64) (e : shared_page_entry)
    (h1 : e.pa = (t k).pa) (h2 : e.dev = (t k).dev) (h3 : e.inum = (t k).inum)
    (h4 : e.offset = (t k).offset) (j : Fin 64) : same_key (Function.update t k e) t j := by
  by_cases hj : j = k
  · subst hj; simp [same_key, h1, h2, h3, h4]
  · simp [same_key, Function.update_noteq hj]

/-- Every call either keeps the key of every slot, or frees one slot and leaves the others
alone, or is the miss path of `get_shared_page` claiming a free slot for a new identity. -/
theorem step_cases (t : Table) (op : Op) :
    ((∀ j, same_key (step t op) t j) ∧ kalloc_calls (trace_of t op) ⊆ [0]) ∨
    ((∃ k, (step t op k).pa = 0 ∧ ∀ j, j ≠ k → step t op j = t j) ∧
      kalloc_calls (trace_of t op) = []) ∨
    (∃ k dev inum offset ka, kalloc_calls (trace_of t op) = [ka] ∧ (t k).pa = 0 ∧ ka ≠ 0 ∧
      (∀ j, ¬ has_identity (t j) dev inum offset) ∧
      step t op = Function.update t k
        { dev := dev, inum := inum, offset := offset, pa := ka, refcnt := 1,
          initialized := 0 }) := by
  cases op with
  | get dev inum offset ka =>
    simp only [step, trace_of]
    cases hf : find_shared_page t dev inum offset with
    | some k =>
      rw [get_shared_page_of_find ka t dev inum offset k hf]
      exact Or.inl ⟨same_key_update t k _ rfl rfl rfl rfl, by simp [kalloc_calls]⟩
    | none =>
      cases ha : alloc_shared_page_entry t with
      | none =>
        rw [get_shared_page_of_full ka t dev inum offset hf ha]
        exact Or.inl ⟨fun j => ⟨rfl, rfl, rfl, rfl⟩, by simp [kalloc_calls]⟩
      | some k =>
        by_cases hka : ka = 0
        · subst hka
          rw [get_shared_page_of_nomem t dev inum offset k hf ha]
          exact Or.inl ⟨fun j => ⟨rfl, rfl, rfl, rfl⟩, by simp [kalloc_calls]⟩
        · rw [get_shared_page_of_alloc ka t dev inum offset k hf ha hka]
          exact Or.inr (Or.inr ⟨k, dev, inum, offset, ka, by simp [kalloc_calls],
            ((alloc_shared_page_entry_eq_some_iff t k).1 ha).1, hka,
            (find_shared_page_eq_none_iff t dev inum offset).1 hf, rfl⟩)
  | mark pa =>
    simp only [step, trace_of]
    cases hl : lookup_pa t pa with
    | some k =>
      rw [mark_shared_page_initialized_of_some t pa k hl]
      exact Or.inl ⟨same_key_update t k _ rfl rfl rfl rfl, by simp [kalloc_calls]⟩
    | none =>
      rw [mark_shared_page_initialized_of_none t pa hl]
      exact Or.inl ⟨fun j => ⟨rfl, rfl, rfl, rfl⟩, by simp [kalloc_calls]⟩
  | is_init pa =>
    simp only [step, trace_of, is_shared_page_initialized_table]
    refine Or.inl ⟨fun j => ⟨rfl, rfl, rfl, rfl⟩, ?_⟩
    unfold is_shared_page_initialized
    cases lookup_pa t pa <;> simp [kalloc_calls]
  | release pa =>
    simp only [step, trace_of]
    cases hl : lookup_pa t pa with
    | none =>
      rw [release_shared_page_of_none t pa hl]
      exact Or.inl ⟨fun j => ⟨rfl, rfl, rfl, rfl⟩, by simp [kalloc_calls]⟩
    | some k =>
      by_cases hz : int32 ((t k).refcnt - 1) = 0
      · rw [release_shared_page_of_last t pa k hl hz]
        refine Or.inr (Or.inl ⟨⟨k, by simp, ?_⟩, by simp [kalloc_calls]⟩)
        intro j hj; simp [Function.update_noteq hj]
      · rw [release_shared_page_of_more t pa k hl hz]
        exact Or.inl ⟨same_key_update t k _ rfl rfl rfl rfl, by simp [kalloc_calls]⟩

theorem identity_unique_init (t0 : Table) : identity_unique (shared_pages_init t0) := by
  intro i j _ hi; exact absurd rfl hi

theorem pa_unique_init (t0 : Table) : pa_unique (shared_pages_init t0) := by
  intro i j _ hi; exact absurd rfl hi

theorem identity_unique_step (t : Table) (op : Op) (h : identity_unique t) :
    identity_unique (step t op) := by
  rcases step_cases t op with ⟨hk, _⟩ | ⟨⟨k, hk0, hk⟩, _⟩ | ⟨k, dev, inum, offset, ka, _, _, _, hno, heq⟩
  · intro i j hij hi hj
    obtain ⟨a1, a2, a3, a4⟩ := hk i
    obtain ⟨b1, b2, b3, b4⟩ := hk j
    rw [a1] at hi; rw [b1] at hj
    rw [a2, a3, a4, b2, b3, b4]
    exact h i j hij hi hj
  · intro i j hij hi hj
    have hik : i ≠ k := fun e => hi (e ▸ hk0)
    have hjk : j ≠ k := fun e => hj (e ▸ hk0)
    rw [hk i hik] at hi ⊢; rw [hk j hjk] at hj ⊢
    exact h i j hij hi hj
  · rw [heq]
    intro i j hij hi hj
    by_cases hik : i = k
    · subst hik
      have hjk : j ≠ i := fun e => hij e.symm
      simp only [Function.update_same, Function.update_noteq hjk] at hi hj ⊢
      rintro ⟨e1, e2, e3⟩
      exact hno j ⟨hj, e1.symm, e2.symm, e3.symm⟩
    · by_cases hjk : j = k
      · subst hjk
        simp only [Function.update_same, Function.update_noteq hik] at hi hj ⊢
        rintro ⟨e1, e2, e3⟩
        exact hno i ⟨hi, e1, e2, e3⟩
      · simp only [Function.update_noteq hik, Function.update_noteq hjk] at hi hj ⊢
        exact h i j hij hi hj

theorem pa_unique_step (t : Table) (op : Op) (h : pa_unique t)
    (hfresh : ∀ p ∈ kalloc_calls (trace_of t op), ∀ j, (t j).pa ≠ 0 → (t j).pa ≠ p) :
    pa_unique (step t op) := by
  rcases step_cases t op with ⟨hk, _⟩ | ⟨⟨k, hk0, hk⟩, _⟩ | ⟨k, dev, inum, offset, ka, hcall, _, _, _, heq⟩
  · intro i j hij hi hj
    rw [(hk i).1] at hi ⊢; rw [(hk j).1] at hj ⊢
    exact h i j hij hi hj
  · intro i j hij hi hj
    have hik : i ≠ k := fun e => hi (e ▸ hk0)
    have hjk : j ≠ k := fun e => hj (e ▸ hk0)
    rw [hk i hik] at hi ⊢; rw [hk j hjk] at hj ⊢
    exact h i j hij hi hj
  · have hfr : ∀ j, (t j).pa ≠ 0 → (t j).pa ≠ ka := hfresh ka (by rw [hcall]; simp)
    rw [heq]
    intro i j hij hi hj
    by_cases hik : i = k
    · subst hik
      have hjk : j ≠ i := fun e => hij e.symm
      simp only [Function.update_same, Function.update_noteq hjk] at hi hj ⊢
      exact fun e => hfr j hj e.symm
    · by_cases hjk : j = k
      · subst hjk
        simp only [Function.update_same, Function.update_noteq hik] at hi hj ⊢
        exact hfr i hi
      · simp only [Function.update_noteq hik, Function.update_noteq hjk] at hi hj ⊢
        exact h i j hij hi hj

theorem identity_unique_run (ops : List Op) :
    ∀ t, identity_unique t → identity_unique (run t ops) := by
  induction ops with
  | nil => intro t h; exact h
  | cons op rest ih => intro t h; exact ih (step t op) (identity_unique_step t op h)

theorem pa_unique_run (ops : List Op) :
    ∀ t, pa_unique t → allocator_fresh t ops → pa_unique (run t ops) := by
  induction ops with
  | nil => intro t h _; exact h
  | cons op rest ih =>
    intro t h hf
    exact ih (step t op) (pa_unique_step t op h hf.1) hf.2

/-! ## Runs that fill the table or count references -/

theorem triple_ne {a b : Nat × Nat × Nat} (h : a ≠ b) :
    ¬ (a.1 = b.1 ∧ a.2.1 = b.2.1 ∧ a.2.2 = b.2.2) := by
  rintro ⟨h1, h2, h3⟩
  exact h (Prod.ext h1 (Prod.ext h2 h3))

/-- While filling a freshly initialised table with distinct identities, call number `n` takes
the miss path on slot `n`: slots below `n` hold the entries created so far, the others are
still free. -/
theorem fill_spec (ids : Nat → Nat × Nat × Nat) (pages : Nat → Nat) (t0 : Table)
    (hids : ∀ a b, a ≤ 64 → b ≤ 64 → a ≠ b → ids a ≠ ids b)
    (hpages : ∀ a, a < 64 → pages a ≠ 0) (n : Nat) (hn : n ≤ 64) :
    ∀ i : Fin 64, (i.val < n → fill ids pages (shared_pages_init t0) n i = filled_entry ids pages i.val) ∧
      (n ≤ i.val → (fill ids pages (shared_pages_init t0) n i).pa = 0) := by
  induction n with
  | zero =>
    intro i
    exact ⟨fun h => absurd h (Nat.not_lt_zero _), fun _ => rfl⟩
  | succ n ih =>
    have ih := ih (by omega)
    have hn64 : n < 64 := by omega
    have hf : find_shared_page (fill ids pages (shared_pages_init t0) n)
        (ids n).1 (ids n).2.1 (ids n).2.2 = none := by
      rw [find_shared_page_eq_none_iff]
      intro j hj
      by_cases hjn : j.val < n
      · rw [(ih j).1 hjn] at hj
        have hne := hids j.val n (by omega) (by omega) (by omega)
        exact triple_ne hne ⟨hj.2.1, hj.2.2.1, hj.2.2.2⟩
      · exact hj.1 ((ih j).2 (by omega))
    have ha : alloc_shared_page_entry (fill ids pages (shared_pages_init t0) n)
        = some ⟨n, hn64⟩ := by
      rw [alloc_shared_page_entry_eq_some_iff]
      refine ⟨(ih ⟨n, hn64⟩).2 (le_refl _), ?_⟩
      intro j hj
      have hjn : j.val < n := hj
      rw [(ih j).1 hjn]
      exact hpages j.val (by omega)
    intro i
    simp only [fill]
    rw [get_shared_page_of_alloc _ _ _ _ _ ⟨n, hn64⟩ hf ha (hpages n hn64)]
    simp only
    by_cases hin : i = ⟨n, hn64⟩
    · subst hin
      simp [filled_entry, hpages n hn64]
    · have hvn : i.val ≠ n := fun e => hin (Fin.ext e)
      rw [Function.update_noteq hin]
      constructor
      · intro h; exact (ih i).1 (by omega)
      · intro h; exact (ih i).2 (by omega)

theorem holds_entry_get (t : Table) (d i o h ka : Nat) (c : Int) (k : Fin 64)
    (hk : holds_entry t d i o h c k) :
    (get_shared_page ka t d i o).ret = h ∧
      holds_entry (get_shared_page ka t d i o).table d i o h (int32 (c + 1)) k ∧
      kalloc_calls (get_shared_page ka t d i o).trace = [] := by
  obtain ⟨hid, hpa, hc, hoth⟩ := hk
  have hf : find_shared_page t d i o = some k := by
    rw [find_shared_page_eq_some_iff]
    exact ⟨hid, fun j hj => (hoth j (ne_of_lt hj)).2⟩
  rw [get_shared_page_of_find ka t d i o k hf]
  refine ⟨hpa, ⟨?_, ?_, ?_, ?_⟩, by simp [kalloc_calls]⟩
  · simpa [has_identity] using hid
  · simpa using hpa
  · simp [hc]
  · intro j hj
    simp only [Function.update_noteq hj]
    exact hoth j hj

theorem holds_entry_release (t : Table) (d i o h : Nat) (c : Int) (k : Fin 64)
    (hk : holds_entry t d i o h c k) (hc1 : int32 (c - 1) ≠ 0) :
    holds_entry (release_shared_page t h).table d i o h (int32 (c - 1)) k := by
  obtain ⟨hid, hpa, hc, hoth⟩ := hk
  have hl : lookup_pa t h = some k := by
    rw [lookup_pa_eq_some_iff]
    exact ⟨hpa, fun j hj => (hoth j (ne_of_lt hj)).1⟩
  rw [release_shared_page_of_more t h k hl (by rw [hc]; exact hc1)]
  refine ⟨?_, ?_, ?_, ?_⟩
  · simpa [has_identity] using hid
  · simpa using hpa
  · simp [hc]
  · intro j hj
    simp only [Function.update_noteq hj]
    exact hoth j hj

/-- Once the entry exists with count `c`, a sequence that keeps the count between 1 and
`INT_MAX = 2147483647` at every point keeps returning `h` and ends with count
`c + gets - releases`. -/
theorem holds_entry_run (d i o h : Nat) (k : Fin 64) (seq : List RefCall) :
    ∀ (t : Table) (c : Int), holds_entry t d i o h c k →
      (∀ n, n ≤ seq.length →
        (1 : Int) ≤ c + count_gets (seq.take n) - count_releases (seq.take n) ∧
        c + count_gets (seq.take n) - count_releases (seq.take n) ≤ 2147483647) →
      (∀ r ∈ get_returns d i o h t seq, r = h) ∧
      holds_entry (run t (seq.map (RefCall.to_op d i o h))) d i o h
        (c + count_gets seq - count_releases seq) k := by
  induction seq with
  | nil =>
    intro t c hk _
    refine ⟨by simp [get_returns], ?_⟩
    simpa [run, count_gets, count_releases] using hk
  | cons call rest ih =>
    intro t c hk hbal
    have h0 := hbal 0 (Nat.zero_le _)
    simp only [List.take_zero, count_gets, count_releases] at h0
    cases call with
    | get ka =>
      have h1 := hbal 1 (by simp)
      simp only [List.take_succ_cons, List.take_zero, count_gets, count_releases] at h1
      obtain ⟨hret, hk2, _⟩ := holds_entry_get t d i o h ka c k hk
      rw [int32_of_range (c + 1) (by omega) (by push_cast at h1; omega)] at hk2
      have hb2 : ∀ n, n ≤ rest.length →
          (1 : Int) ≤ (c + 1) + count_gets (rest.take n) - count_releases (rest.take n) ∧
          (c + 1) + count_gets (rest.take n) - count_releases (rest.take n) ≤ 2147483647 := by
        intro n hn
        have := hbal (n + 1) (by simp; omega)
        simp only [List.take_succ_cons, count_gets, count_releases] at this
        push_cast at this
        omega
      obtain ⟨r1, r2⟩ := ih _ (c + 1) hk2 hb2
      constructor
      · intro r hr
        simp only [get_returns, List.mem_cons] at hr
        rcases hr with rfl | hr
        · exact hret
        · exact r1 r hr
      · simp only [List.map_cons, RefCall.to_op, run, List.foldl_cons, step, count_gets,
          count_releases]
        have e : c + ((count_gets rest + 1 : Nat) : Int) - (count_releases rest : Int)
            = c + 1 + count_gets rest - count_releases rest := by push_cast; ring
        rw [e]
        exact r2
    | release =>
      have h1 := hbal 1 (by simp)
      simp only [List.take_succ_cons, List.take_zero, count_gets, count_releases] at h1
      have hr32 : int32 (c - 1) = c - 1 :=
        int32_of_range (c - 1) (by push_cast at h1; omega) (by omega)
      have hc1 : int32 (c - 1) ≠ 0 := by rw [hr32]; push_cast at h1; omega
      have hk2 := holds_entry_release t d i o h c k hk hc1
      rw [hr32] at hk2
      have hb2 : ∀ n, n ≤ rest.length →
          (1 : Int) ≤ (c - 1) + count_gets (rest.take n) - count_releases (rest.take n) ∧
          (c - 1) + count_gets (rest.take n) - count_releases (rest.take n) ≤ 2147483647 := by
        intro n hn
        have := hbal (n + 1) (by simp; omega)
        simp only [List.take_succ_cons, count_gets, count_releases] at this
        push_cast at this
        omega
      obtain ⟨r1, r2⟩ := ih _ (c - 1) hk2 hb2
      constructor
      · intro r hr
        simp only [get_returns] at hr
        exact r1 r hr
      · simp only [List.map_cons, RefCall.to_op, run, List.foldl_cons, step, count_gets,
          count_releases]
        have e : c + (count_gets rest : Int) - ((count_releases rest + 1 : Nat) : Int)
            = c - 1 + count_gets rest - count_releases rest := by push_cast; ring
        rw [e]
        exact r2

theorem count_gets_replicate (ka n : Nat) :
    count_gets (List.replicate n (RefCall.get ka)) = n := by
  induction n with
  | zero => rfl
  | succ n ih => rw [List.replicate_succ]; simp only [count_gets, ih]

theorem count_releases_replicate (ka n : Nat) :
    count_releases (List.replicate n (RefCall.get ka)) = 0 := by
  induction n with
  | zero => rfl
  | succ n ih => rw [List.replicate_succ]; simp only [count_releases, ih]

/-- Once the entry exists, `n` further `get_shared_page` calls keep returning `h`, call no
`kalloc`, and add `n` to the count, reduced to 32 bits. -/
theorem holds_entry_gets (d i o h ka : Nat) (k : Fin 64) (n : Nat) :
    ∀ (t : Table) (c : Int), holds_entry t d i o h (int32 c) k →
      holds_entry (run t ((List.replicate n (RefCall.get ka)).map (RefCall.to_op d i o h)))
        d i o h (int32 (c + n)) k ∧
      (∀ r ∈ get_returns d i o h t (List.replicate n (RefCall.get ka)), r = h) ∧
      allocator_fresh t ((List.replicate n (RefCall.get ka)).map (RefCall.to_op d i o h)) := by
  induction n with
  | zero =>
    intro t c hk
    refine ⟨by simpa [run] using hk, by simp [get_returns], trivial⟩
  | succ n ih =>
    intro t c hk
    obtain ⟨hret, hk2, hcalls⟩ := holds_entry_get t d i o h ka (int32 c) k hk
    rw [int32_add_int32] at hk2
    obtain ⟨r1, r2, r3⟩ := ih _ (c + 1) hk2
    rw [List.replicate_succ]
    refine ⟨?_, ?_, ?_⟩
    · simp only [List.map_cons, RefCall.to_op, run, List.foldl_cons, step]
      have e : c + ((n + 1 : Nat) : Int) = c + 1 + n := by push_cast; ring
      rw [e]
      exact r1
    · intro r hr
      simp only [get_returns, List.mem_cons] at hr
      rcases hr with rfl | hr
      · exact hret
      · exact r2 r hr
    · simp only [List.map_cons, RefCall.to_op]
      refine ⟨?_, r3⟩
      simp only [trace_of, hcalls]
      intro p hp
      cases hp

/-- A first `get_shared_page` that misses and allocates page `ka0`, unused so far, followed
by `n` further calls for the same identity: the calls satisfy the conditions of the refcount
accounting, all return `ka0`, and the entry ends with the count `1 + n` reduced to 32 bits. -/
theorem gets_from_miss (d i o ka0 ka : Nat) (n : Nat) (t : Table)
    (hmiss : ∀ j, ¬ has_identity (t j) d i o) (hfree : ∃ j, (t j).pa = 0) (hka0 : ka0 ≠ 0)
    (hnew : ∀ j, (t j).pa ≠ ka0) :
    (∀ m, 0 < m → m ≤ (RefCall.get ka0 :: List.replicate n (RefCall.get ka)).length →
      count_releases ((RefCall.get ka0 :: List.replicate n (RefCall.get ka)).take m) <
        count_gets ((RefCall.get ka0 :: List.replicate n (RefCall.get ka)).take m)) ∧
    (∀ r ∈ get_returns d i o ka0 t (RefCall.get ka0 :: List.replicate n (RefCall.get ka)),
      r = ka0) ∧
    (get_returns d i o ka0 t (RefCall.get ka0 :: List.replicate n (RefCall.get ka))).head?
      = some ka0 ∧
    allocator_fresh t ((RefCall.get ka0 :: List.replicate n (RefCall.get ka)).map
      (RefCall.to_op d i o ka0)) ∧
    (∃ k, holds_entry (run t ((RefCall.get ka0 :: List.replicate n (RefCall.get ka)).map
      (RefCall.to_op d i o ka0))) d i o ka0 (int32 (1 + n)) k) ∧
    count_gets (RefCall.get ka0 :: List.replicate n (RefCall.get ka)) = n + 1 ∧
    count_releases (RefCall.get ka0 :: List.replicate n (RefCall.get ka)) = 0 := by
  have hf := (find_shared_page_eq_none_iff t d i o).2 hmiss
  obtain ⟨k, hk⟩ := alloc_shared_page_entry_exists t hfree
  have hget := get_shared_page_of_alloc ka0 t d i o k hf hk hka0
  have hk0 : holds_entry (get_shared_page ka0 t d i o).table d i o ka0 (int32 1) k := by
    rw [hget]
    refine ⟨?_, by simp, by simp, ?_⟩
    · simp [has_identity, hka0]
    · intro j hj
      simp only [Function.update_noteq hj]
      exact ⟨hnew j, hmiss j⟩
  obtain ⟨r1, r2, r3⟩ := holds_entry_gets d i o ka0 ka k n _ 1 hk0
  refine ⟨?_, ?_, ?_, ?_, ⟨k, ?_⟩, ?_, ?_⟩
  · intro m hm0 _
    cases m with
    | zero => exact absurd hm0 (Nat.lt_irrefl 0)
    | succ m =>
      simp only [List.take_succ_cons, count_gets, count_releases]
      rw [List.take_replicate, count_releases_replicate]
      exact Nat.succ_pos _
  · intro r hr
    simp only [get_returns, List.mem_cons] at hr
    rcases hr with rfl | hr
    · rw [hget]
    · exact r2 r hr
  · simp only [get_returns, List.head?_cons]
    rw [hget]
  · simp only [List.map_cons, RefCall.to_op]
    refine ⟨?_, r3⟩
    simp only [trace_of]
    rw [hget]
    intro p hp j hj
    simp [kalloc_calls] at hp
    subst hp
    exact hnew j
  · simpa only [List.map_cons, RefCall.to_op, run, List.foldl_cons, step] using r1
  · simp only [count_gets, count_gets_replicate]
  · simp only [count_releases, count_releases_replicate]

/-! ## Claims -/

/-- C1. Identity uniqueness is an invariant: in every table reached from `shared_pages_init`
(run on any prior contents) by any sequence of `get_shared_page`,
`mark_shared_page_initialized`, `is_shared_page_initialized` and `release_shared_page` calls
with any arguments and any allocator answers, two distinct live slots never carry the same
`(dev, inum, offset)` triple. -/
theorem identity_unique_reachable (t0 : Table) (ops : List Op) (i j : Fin 64) (hij : i ≠ j)
    (hi : (run (shared_pages_init t0) ops i).pa ≠ 0)
    (hj : (run (shared_pages_init t0) ops j).pa ≠ 0) :
    ¬ ((run (shared_pages_init t0) ops i).dev = (run (shared_pages_init t0) ops j).dev ∧
       (run (shared_pages_init t0) ops i).inum = (run (shared_pages_init t0) ops j).inum ∧
       (run (shared_pages_init t0) ops i).offset = (run (shared_pages_init t0) ops j).offset) :=
  identity_unique_run ops _ (identity_unique_init t0) i j hij hi hj

/-- Witness for C1: after `sample_ops` slots 0 and 1 are both live. -/
theorem identity_unique_reachable_witness :
    (0 : Fin 64) ≠ 1 ∧
    (run (shared_pages_init zero_table) sample_ops 0).pa ≠ 0 ∧
    (run (shared_pages_init zero_table) sample_ops 1).pa ≠ 0 ∧
    ¬ ((run (shared_pages_init zero_table) sample_ops 0).dev =
          (run (shared_pages_init zero_table) sample_ops 1).dev ∧
       (run (shared_pages_init zero_table) sample_ops 0).inum =
          (run (shared_pages_init zero_table) sample_ops 1).inum ∧
       (run (shared_pages_init zero_table) sample_ops 0).offset =
          (run (shared_pages_init zero_table) sample_ops 1).offset) :=
  ⟨by decide, by decide, by decide,
    identity_unique_reachable zero_table sample_ops 0 1 (by decide) (by decide) (by decide)⟩

/-- C2, counterexample. In `int_max_table` slot 2 is the only live slot with identity
`(5, 12, 4096)` and its `refcnt` is `INT_MAX = 2147483647`; after `get_shared_page(5, 12,
4096)` the `refcnt` of slot 2 is `-2147483648`, not `2147483648`: the count has not increased
by one. -/
theorem get_shared_page_hit_wraps :
    (∃ i, has_identity (int_max_table i) 5 12 4096) ∧
    has_identity (int_max_table 2) 5 12 4096 ∧
    (∀ j, j < (2 : Fin 64) → ¬ has_identity (int_max_table j) 5 12 4096) ∧
    (int_max_table 2).refcnt = 2147483647 ∧
    ((get_shared_page 0 int_max_table 5 12 4096).table 2).refcnt = -2147483648 ∧
    ((get_shared_page 0 int_max_table 5 12 4096).table 2).refcnt ≠
      (int_max_table 2).refcnt + 1 := by
  refine ⟨⟨2, by decide⟩, by decide, by decide, by decide, by decide, by decide⟩

/-- C2, amended. Hit path of `get_shared_page`: when `k` is the lowest-indexed live slot with
the identity `(dev, inum, offset)`, the call returns the `pa` of slot `k`, leaves `dev`,
`inum`, `offset`, `pa` and `initialized` of slot `k` and every other slot unchanged, and calls
neither `kalloc` nor `kfree`; and when the `refcnt` of slot `k` is an `int` value below
`INT_MAX = 2147483647`, it adds exactly one to that `refcnt`. -/
theorem get_shared_page_hit (ka : Nat) (t : Table) (dev inum offset : Nat) (k : Fin 64)
    (hk : has_identity (t k) dev inum offset)
    (hmin : ∀ j, j < k → ¬ has_identity (t j) dev inum offset) :
    (get_shared_page ka t dev inum offset).ret = (t k).pa ∧
    ((get_shared_page ka t dev inum offset).table k).dev = (t k).dev ∧
    ((get_shared_page ka t dev inum offset).table k).inum = (t k).inum ∧
    ((get_shared_page ka t dev inum offset).table k).offset = (t k).offset ∧
    ((get_shared_page ka t dev inum offset).table k).pa = (t k).pa ∧
    ((get_shared_page ka t dev inum offset).table k).initialized = (t k).initialized ∧
    (∀ j, j ≠ k → (get_shared_page ka t dev inum offset).table j = t j) ∧
    kalloc_calls (get_shared_page ka t dev inum offset).trace = [] ∧
    kfree_calls (get_shared_page ka t dev inum offset).trace = [] ∧
    (-2147483648 ≤ (t k).refcnt → (t k).refcnt < 2147483647 →
      (get_shared_page ka t dev inum offset).table k =
        { t k with refcnt := (t k).refcnt + 1 }) := by
  have hf := (find_shared_page_eq_some_iff t dev inum offset k).2 ⟨hk, hmin⟩
  rw [get_shared_page_of_find ka t dev inum offset k hf]
  refine ⟨rfl, by simp, by simp, by simp, by simp, by simp, ?_, rfl, rfl, ?_⟩
  · intro j hj; simp [Function.update_noteq hj]
  · intro hlo hhi
    simp [int32_of_range ((t k).refcnt + 1) (by omega) (by omega)]

/-- Witness for C2 (amended) on `sample_table`: the hit is on slot 2, whose count 2 is in
range and becomes 3. -/
theorem get_shared_page_hit_witness :
    has_identity (sample_table 2) 5 12 4096 ∧
    (∀ j, j < (2 : Fin 64) → ¬ has_identity (sample_table j) 5 12 4096) ∧
    -2147483648 ≤ (sample_table 2).refcnt ∧ (sample_table 2).refcnt < 2147483647 ∧
    (get_shared_page 0 sample_table 5 12 4096).ret = (sample_table 2).pa ∧
    (get_shared_page 0 sample_table 5 12 4096).table 2 =
      { sample_table 2 with refcnt := (sample_table 2).refcnt + 1 } :=
  ⟨by decide, by decide, by decide, by decide,
    (get_shared_page_hit 0 sample_table 5 12 4096 2 (by decide) (by decide)).1,
    (get_shared_page_hit 0 sample_table 5 12 4096 2 (by decide) (by decide)).2.2.2.2.2.2.2.2.2
      (by decide) (by decide)⟩

/-- C3. Miss path of `get_shared_page`: when no live slot has the identity, some slot is free
and `kalloc` returns a page `ka`, the call returns `ka`, the lowest-indexed free slot `k` ends
up holding `dev, inum, offset, ka`, `refcnt = 1`, `initialized = 0` whatever it held before,
and every other slot is unchanged. -/
theorem get_shared_page_miss (ka : Nat) (t : Table) (dev inum offset : Nat)
    (hmiss : ∀ i, ¬ has_identity (t i) dev inum offset) (hfree : ∃ i, (t i).pa = 0)
    (hka : ka ≠ 0) :
    ∃ k, (t k).pa = 0 ∧ (∀ j, j < k → (t j).pa ≠ 0) ∧
      (get_shared_page ka t dev inum offset).ret = ka ∧
      (get_shared_page ka t dev inum offset).table k =
        { dev := dev, inum := inum, offset := offset, pa := ka, refcnt := 1,
          initialized := 0 } ∧
      (∀ j, j ≠ k → (get_shared_page ka t dev inum offset).table j = t j) := by
  have hf := (find_shared_page_eq_none_iff t dev inum offset).2 hmiss
  obtain ⟨k, hk⟩ := alloc_shared_page_entry_exists t hfree
  have hk2 := (alloc_shared_page_entry_eq_some_iff t k).1 hk
  rw [get_shared_page_of_alloc ka t dev inum offset k hf hk hka]
  refine ⟨k, hk2.1, hk2.2, rfl, ?_, ?_⟩
  · simp
  · intro j hj; simp [Function.update_noteq hj]

/-- Witness for C3 on `sample_table` (slot 0 is its lowest free slot). -/
theorem get_shared_page_miss_witness :
    (∀ i, ¬ has_identity (sample_table i) 7 8 0) ∧ (∃ i, (sample_table i).pa = 0) ∧
    (12288 : Nat) ≠ 0 ∧
    ∃ k, (sample_table k).pa = 0 ∧ (∀ j, j < k → (sample_table j).pa ≠ 0) ∧
      (get_shared_page 12288 sample_table 7 8 0).ret = 12288 ∧
      (get_shared_page 12288 sample_table 7 8 0).table k =
        { dev := 7, inum := 8, offset := 0, pa := 12288, refcnt := 1, initialized := 0 } ∧
      (∀ j, j ≠ k → (get_shared_page 12288 sample_table 7 8 0).table j = sample_table j) :=
  ⟨by decide, ⟨0, by decide⟩, by decide,
    get_shared_page_miss 12288 sample_table 7 8 0 (by decide) ⟨0, by decide⟩ (by decide)⟩

/-- C4, counterexample. From the freshly initialised table run `many_gets`: 2147483648 calls
`get_shared_page(1, 1, 0)`, the first answered by `kalloc` with page 4096.  There is no live
entry for `(1, 1, 0)` at the start, there is no release at all, every get succeeds and returns
4096, and the one page `kalloc` hands out is unused.  Yet at the end the `refcnt` of the entry
is `-2147483648`, not the number of gets, 2147483648. -/
theorem refcount_accounting_wraps :
    (∀ j, ¬ has_identity (shared_pages_init zero_table j) 1 1 0) ∧
    (∀ m, 0 < m → m ≤ many_gets.length →
      count_releases (many_gets.take m) < count_gets (many_gets.take m)) ∧
    (∀ r ∈ get_returns 1 1 0 4096 (shared_pages_init zero_table) many_gets, r ≠ 0) ∧
    (get_returns 1 1 0 4096 (shared_pages_init zero_table) many_gets).head? = some 4096 ∧
    allocator_fresh (shared_pages_init zero_table)
      (many_gets.map (RefCall.to_op 1 1 0 4096)) ∧
    (count_gets many_gets : Int) - count_releases many_gets = 2147483648 ∧
    ∃ k, has_identity
        (run (shared_pages_init zero_table) (many_gets.map (RefCall.to_op 1 1 0 4096)) k)
        1 1 0 ∧
      (∀ j, has_identity
        (run (shared_pages_init zero_table) (many_gets.map (RefCall.to_op 1 1 0 4096)) j)
        1 1 0 → j = k) ∧
      (run (shared_pages_init zero_table) (many_gets.map (RefCall.to_op 1 1 0 4096)) k).refcnt
        = -2147483648 ∧
      (run (shared_pages_init zero_table) (many_gets.map (RefCall.to_op 1 1 0 4096)) k).refcnt
        ≠ (count_gets many_gets : Int) - count_releases many_gets := by
  have h := gets_from_miss 1 1 0 4096 0 2147483647 (shared_pages_init zero_table)
    (by decide) ⟨0, by decide⟩ (by decide) (by decide)
  obtain ⟨h1, h2, h3, h4, ⟨k, h5⟩, h6, h7⟩ := h
  have hcount : (count_gets many_gets : Int) - count_releases many_gets = 2147483648 := by
    have e6 : count_gets many_gets = 2147483647 + 1 := h6
    have e7 : count_releases many_gets = 0 := h7
    rw [e6, e7]
    norm_num
  have hwrap : int32 (1 + ((2147483647 : Nat) : Int)) = -2147483648 := by decide
  obtain ⟨a1, _, a3, a4⟩ := h5
  rw [hwrap] at a3
  refine ⟨by decide, h1, ?_, h3, h4, hcount, k, a1, ?_, a3, ?_⟩
  · intro r hr
    have e : r = 4096 := h2 r hr
    rw [e]
    decide
  · intro j hj
    by_contra hjk
    exact (a4 j hjk).2 hj
  · rw [hcount]
    have e : (run (shared_pages_init zero_table)
        (many_gets.map (RefCall.to_op 1 1 0 4096)) k).refcnt = -2147483648 := a3
    rw [e]
    decide

/-- C4, amended. Refcount accounting: start from any table (in particular any reachable one)
with no live entry for `(d, i, o)` and run any sequence of `get_shared_page(d, i, o)` calls
that all succeed and `release_shared_page(h)` calls on the handle `h` returned by the first of
them, such that in every non-empty initial segment the releases are fewer than the gets and
in every initial segment the gets exceed the releases by at most `INT_MAX = 2147483647`.  If
every page handed out by `kalloc` is held by no live entry at that time, then every get of
the sequence returns `h`, and at the end exactly one slot is the live entry of `(d, i, o)`; it
holds `h` and its `refcnt` is the number of gets minus the number of releases. -/
theorem refcount_accounting (t : Table) (d i o h : Nat) (seq : List RefCall)
    (hstart : ∀ j, ¬ has_identity (t j) d i o)
    (hbal : ∀ n, 0 < n → n ≤ seq.length →
      count_releases (seq.take n) < count_gets (seq.take n))
    (hmax : ∀ n, n ≤ seq.length →
      count_gets (seq.take n) ≤ count_releases (seq.take n) + 2147483647)
    (hsucc : ∀ r ∈ get_returns d i o h t seq, r ≠ 0)
    (hh : (get_returns d i o h t seq).head? = some h)
    (hfresh : allocator_fresh t (seq.map (RefCall.to_op d i o h))) :
    (∀ r ∈ get_returns d i o h t seq, r = h) ∧
    ∃ k, has_identity (run t (seq.map (RefCall.to_op d i o h)) k) d i o ∧
      (run t (seq.map (RefCall.to_op d i o h)) k).pa = h ∧
      (run t (seq.map (RefCall.to_op d i o h)) k).refcnt =
        (count_gets seq : Int) - count_releases seq ∧
      ∀ j, has_identity (run t (seq.map (RefCall.to_op d i o h)) j) d i o → j = k := by
  cases seq with
  | nil => simp [get_returns] at hh
  | cons call rest =>
    cases call with
    | release =>
      have := hbal 1 (by decide) (by simp)
      simp [count_gets, count_releases] at this
    | get ka =>
      have hf := (find_shared_page_eq_none_iff t d i o).2 hstart
      have hret : (get_shared_page ka t d i o).ret = h := by
        simpa [get_returns] using hh
      have hne : (get_shared_page ka t d i o).ret ≠ 0 :=
        hsucc _ (by simp [get_returns])
      have hfr := hfresh.1
      simp only [List.map_cons, RefCall.to_op, trace_of] at hfr
      cases ha : alloc_shared_page_entry t with
      | none =>
        rw [get_shared_page_of_full ka t d i o hf ha] at hne
        exact absurd rfl hne
      | some k =>
        by_cases hka : ka = 0
        · subst hka
          rw [get_shared_page_of_nomem t d i o k hf ha] at hne
          exact absurd rfl hne
        · have hget := get_shared_page_of_alloc ka t d i o k hf ha hka
          rw [hget] at hret hfr
          simp only at hret
          subst hret
          have hfr2 : ∀ j, (t j).pa ≠ 0 → (t j).pa ≠ ka :=
            hfr ka (by simp [kalloc_calls])
          have hk0 : holds_entry (get_shared_page ka t d i o).table d i o ka 1 k := by
            rw [hget]
            refine ⟨?_, by simp, by simp, ?_⟩
            · simp [has_identity, hka]
            · intro j hj
              simp only [Function.update_noteq hj]
              refine ⟨?_, hstart j⟩
              by_cases hj0 : (t j).pa = 0
              · rw [hj0]; exact fun e => hka e.symm
              · exact hfr2 j hj0
          have hb2 : ∀ n, n ≤ rest.length →
              (1 : Int) ≤ 1 + count_gets (rest.take n) - count_releases (rest.take n) ∧
              (1 : Int) + count_gets (rest.take n) - count_releases (rest.take n)
                ≤ 2147483647 := by
            intro n hn
            have h1 := hbal (n + 1) (by omega) (by simp; omega)
            have h2 := hmax (n + 1) (by simp; omega)
            simp only [List.take_succ_cons, count_gets, count_releases] at h1 h2
            omega
          obtain ⟨r1, r2⟩ := holds_entry_run d i o ka k rest _ 1 hk0 hb2
          constructor
          · intro r hr
            simp only [get_returns, List.mem_cons] at hr
            rcases hr with rfl | hr
            · rw [hget]
            · exact r1 r hr
          · simp only [List.map_cons, RefCall.to_op, run, List.foldl_cons, step, count_gets,
              count_releases]
            obtain ⟨a1, a2, a3, a4⟩ := r2
            refine ⟨k, a1, a2, ?_, ?_⟩
            · rw [run] at a3
              rw [a3]; push_cast; ring
            · intro j hj
              by_contra hjk
              exact (a4 j hjk).2 hj

/-- Witness for C4 on `sample_table`, identity `(1, 1, 0)` and page 4096: three gets and one
release leave the count at 2. -/
theorem refcount_accounting_witness :
    (∀ j, ¬ has_identity (sample_table j) 1 1 0) ∧
    (∀ r ∈ get_returns 1 1 0 4096 sample_table sample_calls, r ≠ 0) ∧
    (get_returns 1 1 0 4096 sample_table sample_calls).head? = some 4096 ∧
    allocator_fresh sample_table (sample_calls.map (RefCall.to_op 1 1 0 4096)) ∧
    ((∀ r ∈ get_returns 1 1 0 4096 sample_table sample_calls, r = 4096) ∧
    ∃ k, has_identity (run sample_table (sample_calls.map (RefCall.to_op 1 1 0 4096)) k) 1 1 0 ∧
      (run sample_table (sample_calls.map (RefCall.to_op 1 1 0 4096)) k).pa = 4096 ∧
      (run sample_table (sample_calls.map (RefCall.to_op 1 1 0 4096)) k).refcnt =
        (count_gets sample_calls : Int) - count_releases sample_calls ∧
      ∀ j, has_identity (run sample_table (sample_calls.map (RefCall.to_op 1 1 0 4096)) j)
        1 1 0 → j = k) :=
  ⟨by decide, by decide, by decide, ⟨by decide, by decide, by decide, by decide, trivial⟩,
    refcount_accounting sample_table 1 1 0 4096 sample_calls (by decide)
      (by
        intro n h0 hn
        have hn4 : n ≤ 4 := hn
        interval_cases n <;> decide)
      (by
        intro n hn
        have hn4 : n ≤ 4 := hn
        interval_cases n <;> decide)
      (by decide) (by decide) ⟨by decide, by decide, by decide, by decide, trivial⟩⟩

/-- C6, evaluation at the failing input. `marked_null_table` is reached from
`shared_pages_init` on zeroed storage by `mark_shared_page_initialized(0)`, which matches free
slot 0.  In it no live entry has identity `(5, 12, 4096)`, slot 0 is free and page 8192 is
held by no slot; `get_shared_page(5, 12, 4096)` returns 8192 and the immediately following
`release_shared_page(8192)` leaves slot 0 neutral, while before the get it had
`initialized = 1`: the table is not the table before the get. -/
theorem round_trip_not_identity :
    marked_null_table = run (shared_pages_init zero_table) [.mark 0] ∧
    (∀ i, ¬ has_identity (marked_null_table i) 5 12 4096) ∧
    (∃ i, (marked_null_table i).pa = 0) ∧
    (∀ i, (marked_null_table i).pa ≠ 8192) ∧
    (get_shared_page 8192 marked_null_table 5 12 4096).ret = 8192 ∧
    (marked_null_table 0).initialized = 1 ∧
    (release_shared_page (get_shared_page 8192 marked_null_table 5 12 4096).table 8192).table 0
      = neutral_entry ∧
    (release_shared_page (get_shared_page 8192 marked_null_table 5 12 4096).table 8192).table
      ≠ marked_null_table := by
  refine ⟨rfl, by decide, ⟨0, by decide⟩, by decide, by decide, by decide, by decide, ?_⟩
  intro h
  have h0 := congrFun h 0
  revert h0
  decide

/-- Round trip of `get_shared_page` and `release_shared_page`.  In a table in which no live
entry has identity `(d, i, o)`, a slot is free and `kalloc` returns a page `h` held by no slot,
`get_shared_page(d, i, o)` claims the lowest free slot `k` and returns `h`, and after the
immediately following `release_shared_page(h)` slot `k` is free again with the neutral
contents, every other slot is what it was before the get, `kalloc` was called once and
`kfree` exactly once, with `h`.  So the table is the table before the get whenever slot `k`
had the neutral contents, which is what `shared_pages_init` on zeroed storage and
`release_shared_page` leave in a free slot. -/
theorem round_trip_get_release (h : Nat) (t : Table) (d i o : Nat)
    (hmiss : ∀ j, ¬ has_identity (t j) d i o) (hfree : ∃ j, (t j).pa = 0)
    (hnew : ∀ j, (t j).pa ≠ h) :
    ∃ k, (t k).pa = 0 ∧ (∀ j, j < k → (t j).pa ≠ 0) ∧
      (get_shared_page h t d i o).ret = h ∧
      (release_shared_page (get_shared_page h t d i o).table h).table k =
        { dev := 0, inum := 0, offset := 0, pa := 0, refcnt := 0, initialized := 0 } ∧
      (∀ j, j ≠ k →
        (release_shared_page (get_shared_page h t d i o).table h).table j = t j) ∧
      kalloc_calls ((get_shared_page h t d i o).trace ++
        (release_shared_page (get_shared_page h t d i o).table h).trace) = [h] ∧
      kfree_calls ((get_shared_page h t d i o).trace ++
        (release_shared_page (get_shared_page h t d i o).table h).trace) = [h] ∧
      ((release_shared_page (get_shared_page h t d i o).table h).table = t ↔
        t k = { dev := 0, inum := 0, offset := 0, pa := 0, refcnt := 0, initialized := 0 }) := by
  have hf := (find_shared_page_eq_none_iff t d i o).2 hmiss
  obtain ⟨k, hk⟩ := alloc_shared_page_entry_exists t hfree
  have hk2 := (alloc_shared_page_entry_eq_some_iff t k).1 hk
  have hh : h ≠ 0 := fun e => hnew k (by rw [hk2.1, e])
  rw [get_shared_page_of_alloc h t d i o k hf hk hh]
  simp only
  have hl : lookup_pa (Function.update t k
      { dev := d, inum := i, offset := o, pa := h, refcnt := 1, initialized := 0 }) h
      = some k := by
    rw [lookup_pa_eq_some_iff]
    refine ⟨by simp, ?_⟩
    intro j hj
    have hjk : j ≠ k := ne_of_lt hj
    simp only [Function.update_noteq hjk]
    exact hnew j
  rw [release_shared_page_of_last _ h k hl (by simp)]
  simp only [Function.update_same, Function.update_idem]
  refine ⟨k, hk2.1, hk2.2, trivial, by simp, ?_, by simp [kalloc_calls],
    by simp [kfree_calls], ?_⟩
  · intro j hj; simp [Function.update_noteq hj]
  · constructor
    · intro e
      have := congrFun e k
      simpa using this.symm
    · intro e
      funext j
      by_cases hj : j = k
      · subst hj; simp [e]
      · simp [Function.update_noteq hj]

/-- C7. Failure characterisation of `get_shared_page`: the call returns the null handle
exactly when no live slot has the identity and either no slot is free or `kalloc` returns
null; when no slot is free `kalloc` is not called; and on the hit path and on the path where
a free slot exists and `kalloc` succeeds the returned handle is not null. -/
theorem get_shared_page_fail_iff (ka : Nat) (t : Table) (dev inum offset : Nat) :
    ((get_shared_page ka t dev inum offset).ret = 0 ↔
      (∀ i, ¬ has_identity (t i) dev inum offset) ∧ ((∀ i, (t i).pa ≠ 0) ∨ ka = 0)) ∧
    ((∀ i, (t i).pa ≠ 0) → kalloc_calls (get_shared_page ka t dev inum offset).trace = []) ∧
    (((∃ i, has_identity (t i) dev inum offset) ∨ ((∃ i, (t i).pa = 0) ∧ ka ≠ 0)) →
      (get_shared_page ka t dev inum offset).ret ≠ 0) := by
  have key : (get_shared_page ka t dev inum offset).ret = 0 ↔
      (∀ i, ¬ has_identity (t i) dev inum offset) ∧ ((∀ i, (t i).pa ≠ 0) ∨ ka = 0) := by
    cases hf : find_shared_page t dev inum offset with
    | some k =>
      have hk := (find_shared_page_eq_some_iff t dev inum offset k).1 hf
      rw [get_shared_page_of_find ka t dev inum offset k hf]
      constructor
      · intro h0; exact absurd h0 hk.1.1
      · rintro ⟨hno, _⟩; exact absurd hk.1 (hno k)
    | none =>
      have hno := (find_shared_page_eq_none_iff t dev inum offset).1 hf
      cases ha : alloc_shared_page_entry t with
      | none =>
        rw [get_shared_page_of_full ka t dev inum offset hf ha]
        exact ⟨fun _ => ⟨hno, Or.inl ((alloc_shared_page_entry_eq_none_iff t).1 ha)⟩,
          fun _ => rfl⟩
      | some k =>
        have hk := (alloc_shared_page_entry_eq_some_iff t k).1 ha
        by_cases hka : ka = 0
        · subst hka
          rw [get_shared_page_of_nomem t dev inum offset k hf ha]
          exact ⟨fun _ => ⟨hno, Or.inr rfl⟩, fun _ => rfl⟩
        · rw [get_shared_page_of_alloc ka t dev inum offset k hf ha hka]
          constructor
          · intro h0; exact absurd h0 hka
          · rintro ⟨_, hfull | h0⟩
            · exact absurd hk.1 (hfull k)
            · exact absurd h0 hka
  refine ⟨key, ?_, ?_⟩
  · intro hfull
    cases hf : find_shared_page t dev inum offset with
    | some k => rw [get_shared_page_of_find ka t dev inum offset k hf]; rfl
    | none =>
      have ha := (alloc_shared_page_entry_eq_none_iff t).2 hfull
      rw [get_shared_page_of_full ka t dev inum offset hf ha]; rfl
  · intro h h0
    obtain ⟨hno, hor⟩ := key.1 h0
    rcases h with ⟨i, hi⟩ | ⟨⟨i, hi⟩, hka⟩
    · exact hno i hi
    · rcases hor with hfull | hz
      · exact hfull i hi
      · exact hka hz

/-- C8. Atomicity of failure: whenever `get_shared_page` returns the null handle, every slot
of the table (hence every field of every slot) is what it was before the call. -/
theorem get_shared_page_fail_unchanged (ka : Nat) (t : Table) (dev inum offset : Nat)
    (h : (get_shared_page ka t dev inum offset).ret = 0) :
    ∀ i, (get_shared_page ka t dev inum offset).table i = t i := by
  cases hf : find_shared_page t dev inum offset with
  | some k =>
    have hk := (find_shared_page_eq_some_iff t dev inum offset k).1 hf
    rw [get_shared_page_of_find ka t dev inum offset k hf] at h
    exact absurd h hk.1.1
  | none =>
    cases ha : alloc_shared_page_entry t with
    | none =>
      rw [get_shared_page_of_full ka t dev inum offset hf ha]; intro i; rfl
    | some k =>
      by_cases hka : ka = 0
      · subst hka
        rw [get_shared_page_of_nomem t dev inum offset k hf ha]; intro i; rfl
      · rw [get_shared_page_of_alloc ka t dev inum offset k hf ha hka] at h
        exact absurd h hka

/-- Witness for C8: the table is full (capacity failure) and stays as it was. -/
theorem get_shared_page_fail_unchanged_witness :
    (get_shared_page 4096 full_table 9 9 0).ret = 0 ∧
    ∀ i, (get_shared_page 4096 full_table 9 9 0).table i = full_table i :=
  ⟨by decide, get_shared_page_fail_unchanged 4096 full_table 9 9 0 (by decide)⟩

/-- C9. Capacity boundary: after `shared_pages_init`, 64 `get_shared_page` calls with
pairwise distinct identities, the allocator answering with pairwise distinct non-null pages,
all succeed (call `n` returns page `n`) and leave all 64 slots live, slot `n` holding
identity `n`, page `n` and `refcnt = 1`; a call for a 65th distinct identity then returns
null whatever the allocator would answer; and after `release_shared_page` on the page of any
one entry `m` (its `refcnt` going from 1 to 0, slot `m` becoming free) the call for the 65th
identity returns the page the allocator hands out. -/
theorem capacity_boundary (ids : Nat → Nat × Nat × Nat) (pages : Nat → Nat) (t0 : Table)
    (hids : ∀ a b, a ≤ 64 → b ≤ 64 → a ≠ b → ids a ≠ ids b)
    (hpages : ∀ a, a < 64 → pages a ≠ 0)
    (hdist : ∀ a b, a < 64 → b < 64 → a ≠ b → pages a ≠ pages b) :
    (∀ n, n < 64 →
      (get_shared_page (pages n) (fill ids pages (shared_pages_init t0) n)
        (ids n).1 (ids n).2.1 (ids n).2.2).ret = pages n ∧ pages n ≠ 0) ∧
    (∀ i : Fin 64, fill ids pages (shared_pages_init t0) 64 i = filled_entry ids pages i.val ∧
      (fill ids pages (shared_pages_init t0) 64 i).pa ≠ 0) ∧
    (∀ ka, (get_shared_page ka (fill ids pages (shared_pages_init t0) 64)
      (ids 64).1 (ids 64).2.1 (ids 64).2.2).ret = 0) ∧
    (∀ (m : Fin 64) (ka : Nat), ka ≠ 0 →
      (fill ids pages (shared_pages_init t0) 64 m).refcnt = 1 ∧
      ((release_shared_page (fill ids pages (shared_pages_init t0) 64) (pages m.val)).table
        m).refcnt = 0 ∧
      ((release_shared_page (fill ids pages (shared_pages_init t0) 64) (pages m.val)).table
        m).pa = 0 ∧
      (get_shared_page ka
        (release_shared_page (fill ids pages (shared_pages_init t0) 64) (pages m.val)).table
        (ids 64).1 (ids 64).2.1 (ids 64).2.2).ret = ka) := by
  have full : ∀ i : Fin 64,
      fill ids pages (shared_pages_init t0) 64 i = filled_entry ids pages i.val :=
    fun i => (fill_spec ids pages t0 hids hpages 64 (le_refl _) i).1 i.isLt
  have hnone : ∀ j : Fin 64, ¬ has_identity (fill ids pages (shared_pages_init t0) 64 j)
      (ids 64).1 (ids 64).2.1 (ids 64).2.2 := by
    intro j hj
    rw [full j] at hj
    have hne := hids j.val 64 (by omega) (le_refl _) (by omega)
    exact triple_ne hne ⟨hj.2.1, hj.2.2.1, hj.2.2.2⟩
  refine ⟨?_, ?_, ?_, ?_⟩
  · intro n hn
    have ih := fill_spec ids pages t0 hids hpages n (by omega)
    have hf : find_shared_page (fill ids pages (shared_pages_init t0) n)
        (ids n).1 (ids n).2.1 (ids n).2.2 = none := by
      rw [find_shared_page_eq_none_iff]
      intro j hj
      by_cases hjn : j.val < n
      · rw [(ih j).1 hjn] at hj
        have hne := hids j.val n (by omega) (by omega) (by omega)
        exact triple_ne hne ⟨hj.2.1, hj.2.2.1, hj.2.2.2⟩
      · exact hj.1 ((ih j).2 (by omega))
    obtain ⟨k, hk⟩ := alloc_shared_page_entry_exists
      (fill ids pages (shared_pages_init t0) n) ⟨⟨n, hn⟩, (ih ⟨n, hn⟩).2 (le_refl _)⟩
    rw [get_shared_page_of_alloc _ _ _ _ _ k hf hk (hpages n hn)]
    exact ⟨rfl, hpages n hn⟩
  · intro i
    refine ⟨full i, ?_⟩
    rw [full i]
    exact hpages i.val i.isLt
  · intro ka
    have hf := (find_shared_page_eq_none_iff _ (ids 64).1 (ids 64).2.1 (ids 64).2.2).2 hnone
    have ha : alloc_shared_page_entry (fill ids pages (shared_pages_init t0) 64) = none := by
      rw [alloc_shared_page_entry_eq_none_iff]
      intro j
      rw [full j]
      exact hpages j.val j.isLt
    rw [get_shared_page_of_full ka _ _ _ _ hf ha]
  · intro m ka hka
    have hl : lookup_pa (fill ids pages (shared_pages_init t0) 64) (pages m.val) = some m := by
      rw [lookup_pa_eq_some_iff]
      refine ⟨by rw [full m]; rfl, ?_⟩
      intro j hj
      rw [full j]
      exact hdist j.val m.val j.isLt m.isLt (ne_of_lt hj)
    have hz : int32 ((fill ids pages (shared_pages_init t0) 64 m).refcnt - 1) = 0 := by
      rw [full m]; simp [filled_entry]
    rw [release_shared_page_of_last _ _ m hl hz]
    simp only [Function.update_same]
    refine ⟨by rw [full m]; rfl, hz, trivial, ?_⟩
    have hf : find_shared_page (Function.update (fill ids pages (shared_pages_init t0) 64) m
        { dev := 0, inum := 0, offset := 0, pa := 0,
          refcnt := int32 ((fill ids pages (shared_pages_init t0) 64 m).refcnt - 1),
          initialized := 0 }) (ids 64).1 (ids 64).2.1 (ids 64).2.2 = none := by
      rw [find_shared_page_eq_none_iff]
      intro j hj
      by_cases hjm : j = m
      · subst hjm
        rw [Function.update_same] at hj
        exact hj.1 rfl
      · rw [Function.update_noteq hjm] at hj
        exact hnone j hj
    obtain ⟨k, hk⟩ := alloc_shared_page_entry_exists
      (Function.update (fill ids pages (shared_pages_init t0) 64) m
        { dev := 0, inum := 0, offset := 0, pa := 0,
          refcnt := int32 ((fill ids pages (shared_pages_init t0) 64 m).refcnt - 1),
          initialized := 0 }) ⟨m, by simp⟩
    rw [get_shared_page_of_alloc ka _ _ _ _ k hf hk hka]

/-- Witness for C9 with `sample_ids` and `sample_pages`: the 65th call fails, and succeeds
once the entry of slot 7 has been released. -/
theorem capacity_boundary_witness :
    (∀ a b, a ≤ 64 → b ≤ 64 → a ≠ b → sample_ids a ≠ sample_ids b) ∧
    (∀ a, a < 64 → sample_pages a ≠ 0) ∧
    (∀ a b, a < 64 → b < 64 → a ≠ b → sample_pages a ≠ sample_pages b) ∧
    (get_shared_page 1 (fill sample_ids sample_pages (shared_pages_init zero_table) 64)
      (sample_ids 64).1 (sample_ids 64).2.1 (sample_ids 64).2.2).ret = 0 ∧
    (get_shared_page 1
      (release_shared_page (fill sample_ids sample_pages (shared_pages_init zero_table) 64)
        (sample_pages (7 : Fin 64).val)).table
      (sample_ids 64).1 (sample_ids 64).2.1 (sample_ids 64).2.2).ret = 1 :=
  have h1 : ∀ a b, a ≤ 64 → b ≤ 64 → a ≠ b → sample_ids a ≠ sample_ids b := by
    intro a b _ _ hab h
    simp [sample_ids] at h
    exact hab h
  have h2 : ∀ a, a < 64 → sample_pages a ≠ 0 := by
    intro a _; simp [sample_pages]
  have h3 : ∀ a b, a < 64 → b < 64 → a ≠ b → sample_pages a ≠ sample_pages b := by
    intro a b _ _ hab h
    simp [sample_pages] at h
    exact hab h
  ⟨h1, h2, h3, (capacity_boundary sample_ids sample_pages zero_table h1 h2 h3).2.2.1 1,
    ((capacity_boundary sample_ids sample_pages zero_table h1 h2 h3).2.2.2 7 1
      (by decide)).2.2.2⟩

/-- C10. Page exclusivity across identities: if every page handed out by `kalloc` during the
history is, when handed out, not held by a live entry, then in the table reached from
`shared_pages_init` two live slots with different `(dev, inum, offset)` triples never store
the same page, and `get_shared_page` called for two different identities that are both live
in that table returns two different pages. -/
theorem page_exclusive_reachable (t0 : Table) (ops : List Op)
    (hfresh : allocator_fresh (shared_pages_init t0) ops) :
    (∀ i j, (run (shared_pages_init t0) ops i).pa ≠ 0 →
      (run (shared_pages_init t0) ops j).pa ≠ 0 →
      ¬ ((run (shared_pages_init t0) ops i).dev = (run (shared_pages_init t0) ops j).dev ∧
         (run (shared_pages_init t0) ops i).inum = (run (shared_pages_init t0) ops j).inum ∧
         (run (shared_pages_init t0) ops i).offset =
           (run (shared_pages_init t0) ops j).offset) →
      (run (shared_pages_init t0) ops i).pa ≠ (run (shared_pages_init t0) ops j).pa) ∧
    (∀ d1 i1 o1 d2 i2 o2 ka1 ka2, ¬ (d1 = d2 ∧ i1 = i2 ∧ o1 = o2) →
      (∃ i, has_identity (run (shared_pages_init t0) ops i) d1 i1 o1) →
      (∃ j, has_identity (run (shared_pages_init t0) ops j) d2 i2 o2) →
      (get_shared_page ka1 (run (shared_pages_init t0) ops) d1 i1 o1).ret ≠
        (get_shared_page ka2 (run (shared_pages_init t0) ops) d2 i2 o2).ret) := by
  have hp := pa_unique_run ops _ (pa_unique_init t0) hfresh
  have slots : ∀ i j, (run (shared_pages_init t0) ops i).pa ≠ 0 →
      (run (shared_pages_init t0) ops j).pa ≠ 0 →
      ¬ ((run (shared_pages_init t0) ops i).dev = (run (shared_pages_init t0) ops j).dev ∧
         (run (shared_pages_init t0) ops i).inum = (run (shared_pages_init t0) ops j).inum ∧
         (run (shared_pages_init t0) ops i).offset =
           (run (shared_pages_init t0) ops j).offset) →
      (run (shared_pages_init t0) ops i).pa ≠ (run (shared_pages_init t0) ops j).pa := by
    intro i j hi hj hne
    by_cases hij : i = j
    · subst hij; exact absurd ⟨rfl, rfl, rfl⟩ hne
    · exact hp i j hij hi hj
  refine ⟨slots, ?_⟩
  intro d1 i1 o1 d2 i2 o2 ka1 ka2 hne h1 h2
  obtain ⟨k1, hk1⟩ := find_shared_page_exists _ d1 i1 o1 h1
  obtain ⟨k2, hk2⟩ := find_shared_page_exists _ d2 i2 o2 h2
  rw [get_shared_page_of_find ka1 _ d1 i1 o1 k1 hk1, get_shared_page_of_find ka2 _ d2 i2 o2 k2 hk2]
  obtain ⟨a0, a1, a2, a3⟩ := ((find_shared_page_eq_some_iff _ d1 i1 o1 k1).1 hk1).1
  obtain ⟨b0, b1, b2, b3⟩ := ((find_shared_page_eq_some_iff _ d2 i2 o2 k2).1 hk2).1
  apply slots k1 k2 a0 b0
  rw [a1, a2, a3, b1, b2, b3]
  exact hne

/-- Witness for C10: in `sample_ops` the two `kalloc` calls return 4096 and 8192, each unused
when handed out. -/
theorem page_exclusive_reachable_witness :
    allocator_fresh (shared_pages_init zero_table) sample_ops ∧
    (get_shared_page 0 (run (shared_pages_init zero_table) sample_ops) 1 1 0).ret ≠
      (get_shared_page 0 (run (shared_pages_init zero_table) sample_ops) 1 2 0).ret :=
  ⟨⟨by decide, by decide, by decide, by decide, by decide, trivial⟩,
    (page_exclusive_reachable zero_table sample_ops
      ⟨by decide, by decide, by decide, by decide, by decide, trivial⟩).2
      1 1 0 1 2 0 0 0 (by decide) ⟨0, by decide⟩ ⟨1, by decide⟩⟩

/-! ## The shape of one call -/

/-- Every call of the interface has one of six effects on the table, each with its own trace:
nothing changes; a live slot gains a reference; a free slot is claimed for a new identity; a
slot is marked initialised; a slot loses a reference and keeps a non-zero count; a slot loses
its last reference and is reset, its page going back to the allocator. -/
theorem step_shape (t : Table) (op : Op) :
    (step t op = t ∧
      (trace_of t op = [.acquire_table, .release_table] ∨
       trace_of t op = [.acquire_table, .kalloc 0, .release_table] ∨
       ∃ k, trace_of t op =
         [.acquire_table, .acquire_entry k, .release_entry k, .release_table])) ∨
    (∃ k, (t k).pa ≠ 0 ∧
      step t op = Function.update t k { t k with refcnt := int32 ((t k).refcnt + 1) } ∧
      trace_of t op = [.acquire_table, .acquire_entry k, .release_entry k, .release_table]) ∨
    (∃ k dev inum offset ka, (t k).pa = 0 ∧ ka ≠ 0 ∧
      (∀ j, ¬ has_identity (t j) dev inum offset) ∧
      step t op = Function.update t k
        { dev := dev, inum := inum, offset := offset, pa := ka, refcnt := 1,
          initialized := 0 } ∧
      trace_of t op = [.acquire_table, .kalloc ka, .acquire_entry k, .release_entry k,
        .release_table]) ∨
    (∃ k, step t op = Function.update t k { t k with initialized := 1 } ∧
      trace_of t op = [.acquire_table, .acquire_entry k, .release_entry k, .release_table]) ∨
    (∃ k pa, op = .release pa ∧ (t k).pa = pa ∧ (∀ j, j < k → (t j).pa ≠ pa) ∧
      int32 ((t k).refcnt - 1) ≠ 0 ∧
      step t op = Function.update t k { t k with refcnt := int32 ((t k).refcnt - 1) } ∧
      trace_of t op = [.acquire_table, .acquire_entry k, .release_entry k, .release_table]) ∨
    (∃ k pa, op = .release pa ∧ (t k).pa = pa ∧ (∀ j, j < k → (t j).pa ≠ pa) ∧
      int32 ((t k).refcnt - 1) = 0 ∧
      step t op = Function.update t k neutral_entry ∧
      trace_of t op = [.acquire_table, .acquire_entry k, .kfree pa, .release_entry k,
        .release_table]) := by
  cases op with
  | get dev inum offset ka =>
    simp only [step, trace_of]
    cases hf : find_shared_page t dev inum offset with
    | some k =>
      rw [get_shared_page_of_find ka t dev inum offset k hf]
      exact Or.inr (Or.inl ⟨k, ((find_shared_page_eq_some_iff t dev inum offset k).1 hf).1.1,
        rfl, rfl⟩)
    | none =>
      cases ha : alloc_shared_page_entry t with
      | none =>
        rw [get_shared_page_of_full ka t dev inum offset hf ha]
        exact Or.inl ⟨rfl, Or.inl rfl⟩
      | some k =>
        by_cases hka : ka = 0
        · subst hka
          rw [get_shared_page_of_nomem t dev inum offset k hf ha]
          exact Or.inl ⟨rfl, Or.inr (Or.inl rfl)⟩
        · rw [get_shared_page_of_alloc ka t dev inum offset k hf ha hka]
          exact Or.inr (Or.inr (Or.inl ⟨k, dev, inum, offset, ka,
            ((alloc_shared_page_entry_eq_some_iff t k).1 ha).1, hka,
            (find_shared_page_eq_none_iff t dev inum offset).1 hf, rfl, rfl⟩))
  | mark pa =>
    simp only [step, trace_of]
    cases hl : lookup_pa t pa with
    | some k =>
      rw [mark_shared_page_initialized_of_some t pa k hl]
      exact Or.inr (Or.inr (Or.inr (Or.inl ⟨k, rfl, rfl⟩)))
    | none =>
      rw [mark_shared_page_initialized_of_none t pa hl]
      exact Or.inl ⟨rfl, Or.inl rfl⟩
  | is_init pa =>
    simp only [step, trace_of]
    refine Or.inl ⟨is_shared_page_initialized_table t pa, ?_⟩
    unfold is_shared_page_initialized
    cases lookup_pa t pa with
    | none => exact Or.inl rfl
    | some k => exact Or.inr (Or.inr ⟨k, rfl⟩)
  | release pa =>
    simp only [step, trace_of]
    cases hl : lookup_pa t pa with
    | none =>
      rw [release_shared_page_of_none t pa hl]
      exact Or.inl ⟨rfl, Or.inl rfl⟩
    | some k =>
      have hk := (lookup_pa_eq_some_iff t pa k).1 hl
      by_cases hz : int32 ((t k).refcnt - 1) = 0
      · rw [release_shared_page_of_last t pa k hl hz]
        refine Or.inr (Or.inr (Or.inr (Or.inr (Or.inr ⟨k, pa, rfl, hk.1, hk.2, hz, ?_, ?_⟩))))
        · simp only [hz, neutral_entry]
        · simp only [hk.1]
      · rw [release_shared_page_of_more t pa k hl hz]
        exact Or.inr (Or.inr (Or.inr (Or.inr (Or.inl ⟨k, pa, rfl, hk.1, hk.2, hz, rfl, rfl⟩))))

/-- Every call keeps every `refcnt` of the table inside the range of a 32-bit `int`. -/
theorem refcnt_in_range_step (t : Table) (op : Op)
    (h : ∀ i, -2147483648 ≤ (t i).refcnt ∧ (t i).refcnt ≤ 2147483647) :
    ∀ i, -2147483648 ≤ (step t op i).refcnt ∧ (step t op i).refcnt ≤ 2147483647 := by
  rcases step_shape t op with ⟨he, _⟩ | ⟨k, _, he, _⟩ | ⟨k, d, n, o, ka, _, _, _, he, _⟩ |
    ⟨k, he, _⟩ | ⟨k, pa, _, _, _, _, he, _⟩ | ⟨k, pa, _, _, _, _, he, _⟩
  · rw [he]; exact h
  · rw [he]; intro i
    by_cases hi : i = k
    · subst hi; simp only [Function.update_same]; exact int32_range _
    · simp only [Function.update_noteq hi]; exact h i
  · rw [he]; intro i
    by_cases hi : i = k
    · subst hi; simp
    · simp only [Function.update_noteq hi]; exact h i
  · rw [he]; intro i
    by_cases hi : i = k
    · subst hi; simp only [Function.update_same]; exact h i
    · simp only [Function.update_noteq hi]; exact h i
  · rw [he]; intro i
    by_cases hi : i = k
    · subst hi; simp only [Function.update_same]; exact int32_range _
    · simp only [Function.update_noteq hi]; exact h i
  · rw [he]; intro i
    by_cases hi : i = k
    · subst hi; simp [neutral_entry]
    · simp only [Function.update_noteq hi]; exact h i

/-- Starting from a table whose counts are 32-bit `int` values, such as the one
`shared_pages_init` leaves, every sequence of calls keeps them so. -/
theorem refcnt_in_range_run (ops : List Op) :
    ∀ t, (∀ i, -2147483648 ≤ (t i).refcnt ∧ (t i).refcnt ≤ 2147483647) →
      ∀ i, -2147483648 ≤ (run t ops i).refcnt ∧ (run t ops i).refcnt ≤ 2147483647 := by
  induction ops with
  | nil => intro t h; exact h
  | cons op rest ih => intro t h; exact ih (step t op) (refcnt_in_range_step t op h)

/-! ## The reference count as an unbounded integer -/

theorem get_shared_page_unbounded_of_find (ka : Nat) (t : Table) (dev inum offset : Nat)
    (k : Fin 64) (h : find_shared_page t dev inum offset = some k) :
    get_shared_page_unbounded ka t dev inum offset =
      { ret := (t k).pa
        table := Function.update t k { t k with refcnt := (t k).refcnt + 1 }
        trace := [.acquire_table, .acquire_entry k, .release_entry k, .release_table] } := by
  simp [get_shared_page_unbounded, h]

theorem get_shared_page_unbounded_of_miss (ka : Nat) (t : Table) (dev inum offset : Nat)
    (h : find_shared_page t dev inum offset = none) :
    (get_shared_page_unbounded ka t dev inum offset).table = t ∨
    ∃ k, ka ≠ 0 ∧ (get_shared_page_unbounded ka t dev inum offset).table =
      Function.update t k
        { dev := dev, inum := inum, offset := offset, pa := ka, refcnt := 1,
          initialized := 0 } := by
  cases ha : alloc_shared_page_entry t with
  | none => left; simp [get_shared_page_unbounded, h, ha]
  | some k =>
    by_cases hka : ka = 0
    · left; simp [get_shared_page_unbounded, h, ha, hka]
    · right; exact ⟨k, hka, by simp [get_shared_page_unbounded, h, ha, hka]⟩

theorem release_shared_page_unbounded_of_none (t : Table) (pa : Nat)
    (h : lookup_pa t pa = none) :
    release_shared_page_unbounded t pa =
      { ret := (), table := t, trace := [.acquire_table, .release_table] } := by
  simp [release_shared_page_unbounded, h]

theorem release_shared_page_unbounded_of_last (t : Table) (pa : Nat) (k : Fin 64)
    (h : lookup_pa t pa = some k) (hz : (t k).refcnt - 1 = 0) :
    release_shared_page_unbounded t pa =
      { ret := ()
        table := Function.update t k
          { dev := 0, inum := 0, offset := 0, pa := 0, refcnt := (t k).refcnt - 1,
            initialized := 0 }
        trace := [.acquire_table, .acquire_entry k, .kfree (t k).pa, .release_entry k,
          .release_table] } := by
  simp [release_shared_page_unbounded, h, hz]

theorem release_shared_page_unbounded_of_more (t : Table) (pa : Nat) (k : Fin 64)
    (h : lookup_pa t pa = some k) (hz : (t k).refcnt - 1 ≠ 0) :
    release_shared_page_unbounded t pa =
      { ret := ()
        table := Function.update t k { t k with refcnt := (t k).refcnt - 1 }
        trace := [.acquire_table, .acquire_entry k, .release_entry k, .release_table] } := by
  simp [release_shared_page_unbounded, h, hz]

theorem live_counted_step (t : Table) (op : Op)
    (h : ∀ i, (t i).pa ≠ 0 → 1 ≤ (t i).refcnt) :
    ∀ i, (step_unbounded t op i).pa ≠ 0 → 1 ≤ (step_unbounded t op i).refcnt := by
  cases op with
  | get dev inum offset ka =>
    simp only [step_unbounded]
    cases hf : find_shared_page t dev inum offset with
    | some k =>
      have hk := ((find_shared_page_eq_some_iff t dev inum offset k).1 hf).1.1
      rw [get_shared_page_unbounded_of_find ka t dev inum offset k hf]
      intro i
      by_cases hi : i = k
      · subst hi
        simp only [Function.update_same]
        intro _
        have := h i hk
        omega
      · simp only [Function.update_noteq hi]; exact h i
    | none =>
      rcases get_shared_page_unbounded_of_miss ka t dev inum offset hf with he | ⟨k, _, he⟩
      · rw [he]; exact h
      · rw [he]; intro i
        by_cases hi : i = k
        · subst hi; simp
        · simp only [Function.update_noteq hi]; exact h i
  | mark pa =>
    simp only [step_unbounded]
    cases hl : lookup_pa t pa with
    | some k =>
      rw [mark_shared_page_initialized_of_some t pa k hl]
      intro i
      by_cases hi : i = k
      · subst hi; simp only [Function.update_same]; exact h i
      · simp only [Function.update_noteq hi]; exact h i
    | none =>
      rw [mark_shared_page_initialized_of_none t pa hl]; exact h
  | is_init pa =>
    simp only [step_unbounded, is_shared_page_initialized_table]; exact h
  | release pa =>
    simp only [step_unbounded]
    cases hl : lookup_pa t pa with
    | none => rw [release_shared_page_unbounded_of_none t pa hl]; exact h
    | some k =>
      by_cases hz : (t k).refcnt - 1 = 0
      · rw [release_shared_page_unbounded_of_last t pa k hl hz]
        intro i
        by_cases hi : i = k
        · subst hi; simp
        · simp only [Function.update_noteq hi]; exact h i
      · rw [release_shared_page_unbounded_of_more t pa k hl hz]
        intro i
        by_cases hi : i = k
        · subst hi
          simp only [Function.update_same]
          intro hl2
          have := h i hl2
          omega
        · simp only [Function.update_noteq hi]; exact h i

theorem live_counted_run (ops : List Op) :
    ∀ t, (∀ i, (t i).pa ≠ 0 → 1 ≤ (t i).refcnt) →
      ∀ i, (run_unbounded t ops i).pa ≠ 0 → 1 ≤ (run_unbounded t ops i).refcnt := by
  induction ops with
  | nil => intro t h; exact h
  | cons op rest ih => intro t h; exact ih (step_unbounded t op) (live_counted_step t op h)

/-! ## Page conservation -/

theorem allocated_append (A : List Nat) (tr1 tr2 : List Event) :
    allocated A (tr1 ++ tr2) = allocated (allocated A tr1) tr2 := by
  simp [allocated, List.foldl_append]

theorem alloc_ok_append (tr1 tr2 : List Event) :
    ∀ A, alloc_ok A (tr1 ++ tr2) ↔ alloc_ok A tr1 ∧ alloc_ok (allocated A tr1) tr2 := by
  induction tr1 with
  | nil => intro A; simp [alloc_ok, allocated]
  | cons e rest ih =>
    intro A
    have h := ih (allocated_step A e)
    simp only [allocated] at h
    simp only [List.cons_append, alloc_ok, allocated, List.foldl_cons, and_assoc]
    exact and_congr_right (fun _ => h)

/-- Replacing the contents of slot `k` without changing its `pa` keeps the table in agreement
with the allocated pages. -/
theorem conserved_update_same_pa (t : Table) (A : List Nat) (k : Fin 64)
    (e : shared_page_entry) (h : conserved t A) (hpa : e.pa = (t k).pa) :
    conserved (Function.update t k e) A := by
  have hpas : ∀ j, (Function.update t k e j).pa = (t j).pa := by
    intro j
    by_cases hj : j = k
    · subst hj; simp [hpa]
    · simp [Function.update_noteq hj]
  obtain ⟨h1, h2⟩ := h
  refine ⟨?_, ?_⟩
  · intro i j hij hi hj
    rw [hpas i] at hi ⊢; rw [hpas j] at hj ⊢
    exact h1 i j hij hi hj
  · intro p
    rw [h2 p]
    constructor
    · rintro ⟨i, hi, hip⟩; exact ⟨i, by rw [hpas i]; exact hi, by rw [hpas i]; exact hip⟩
    · rintro ⟨i, hi, hip⟩
      rw [hpas i] at hi hip
      exact ⟨i, hi, hip⟩

/-- Claiming free slot `k` for a page outside the allocated pages. -/
theorem conserved_update_new (t : Table) (A : List Nat) (k : Fin 64)
    (e : shared_page_entry) (h : conserved t A) (hk : (t k).pa = 0) (he : e.pa ≠ 0)
    (hnew : e.pa ∉ A) : conserved (Function.update t k e) (e.pa :: A) := by
  obtain ⟨h1, h2⟩ := h
  have hfr : ∀ j, (t j).pa ≠ 0 → (t j).pa ≠ e.pa :=
    fun j hj hje => hnew ((h2 e.pa).2 ⟨j, hj, hje⟩)
  refine ⟨?_, ?_⟩
  · intro i j hij hi hj
    by_cases hik : i = k
    · subst hik
      have hji : j ≠ i := fun e => hij e.symm
      simp only [Function.update_same, Function.update_noteq hji] at hi hj ⊢
      exact fun e2 => hfr j hj e2.symm
    · by_cases hjk : j = k
      · subst hjk
        simp only [Function.update_same, Function.update_noteq hik] at hi hj ⊢
        exact hfr i hi
      · simp only [Function.update_noteq hik, Function.update_noteq hjk] at hi hj ⊢
        exact h1 i j hij hi hj
  · intro p
    rw [List.mem_cons, h2 p]
    constructor
    · rintro (rfl | ⟨i, hi, hip⟩)
      · exact ⟨k, by simpa using he, by simp⟩
      · have hik : i ≠ k := fun e2 => hi (e2 ▸ hk)
        exact ⟨i, by simpa [Function.update_noteq hik] using hi,
          by simpa [Function.update_noteq hik] using hip⟩
    · rintro ⟨i, hi, hip⟩
      by_cases hik : i = k
      · subst hik
        simp only [Function.update_same] at hip
        exact Or.inl hip.symm
      · simp only [Function.update_noteq hik] at hi hip
        exact Or.inr ⟨i, hi, hip⟩

/-- Resetting live slot `k` and taking its page out of the allocated pages. -/
theorem conserved_update_free (t : Table) (A : List Nat) (k : Fin 64)
    (h : conserved t A) (hk : (t k).pa ≠ 0) :
    conserved (Function.update t k neutral_entry)
      (A.filter (fun q => decide (q ≠ (t k).pa))) := by
  obtain ⟨h1, h2⟩ := h
  refine ⟨?_, ?_⟩
  · intro i j hij hi hj
    have hik : i ≠ k := by
      intro e; subst e; simp [neutral_entry] at hi
    have hjk : j ≠ k := by
      intro e; subst e; simp [neutral_entry] at hj
    simp only [Function.update_noteq hik, Function.update_noteq hjk] at hi hj ⊢
    exact h1 i j hij hi hj
  · intro p
    simp only [List.mem_filter, decide_eq_true_eq, h2 p]
    constructor
    · rintro ⟨⟨i, hi, hip⟩, hne⟩
      have hik : i ≠ k := by
        intro e; subst e; exact hne hip.symm
      exact ⟨i, by simpa [Function.update_noteq hik] using hi,
        by simpa [Function.update_noteq hik] using hip⟩
    · rintro ⟨i, hi, hip⟩
      have hik : i ≠ k := by
        intro e; subst e; simp [neutral_entry] at hi
      simp only [Function.update_noteq hik] at hi hip
      refine ⟨⟨i, hi, hip⟩, ?_⟩
      rw [← hip]
      exact h1 i k hik hi hk

theorem conserved_init (t0 : Table) : conserved (shared_pages_init t0) [] := by
  refine ⟨pa_unique_init t0, ?_⟩
  intro p
  constructor
  · intro h; cases h
  · rintro ⟨i, hi, _⟩; exact absurd rfl hi

theorem conserved_step (t : Table) (A : List Nat) (op : Op) (h : conserved t A)
    (hok : alloc_ok A (trace_of t op)) :
    conserved (step t op) (allocated A (trace_of t op)) := by
  rcases step_shape t op with ⟨he, htr | htr | ⟨k, htr⟩⟩ | ⟨k, hk, he, htr⟩ |
    ⟨k, d, n, o, ka, hk0, hka, _, he, htr⟩ | ⟨k, he, htr⟩ |
    ⟨k, pa, _, _, _, _, he, htr⟩ | ⟨k, pa, _, hpa, _, hz, he, htr⟩
  · rw [he, htr]; simpa [allocated, allocated_step] using h
  · rw [he, htr]; simpa [allocated, allocated_step] using h
  · rw [he, htr]; simpa [allocated, allocated_step] using h
  · rw [he, htr]
    have := conserved_update_same_pa t A k
      { t k with refcnt := int32 ((t k).refcnt + 1) } h rfl
    simpa [allocated, allocated_step] using this
  · rw [htr] at hok
    have hnew : ka ∉ A := by
      have := hok.2.1
      rcases this with e | e
      · exact absurd e hka
      · exact e
    rw [he, htr]
    have := conserved_update_new t A k
      { dev := d, inum := n, offset := o, pa := ka, refcnt := 1, initialized := 0 }
      h hk0 hka hnew
    simpa [allocated, allocated_step, hka] using this
  · rw [he, htr]
    have := conserved_update_same_pa t A k { t k with initialized := 1 } h rfl
    simpa [allocated, allocated_step] using this
  · rw [he, htr]
    have := conserved_update_same_pa t A k
      { t k with refcnt := int32 ((t k).refcnt - 1) } h rfl
    simpa [allocated, allocated_step] using this
  · rw [he, htr]
    by_cases hlive : (t k).pa = 0
    · have hpa0 : pa = 0 := by rw [← hpa]; exact hlive
      have hA : A.filter (fun q => decide (q ≠ pa)) = A := by
        rw [List.filter_eq_self]
        intro q hq
        obtain ⟨i, hi, hiq⟩ := (h.2 q).1 hq
        simp only [decide_eq_true_eq]
        rw [hpa0, ← hiq]
        exact hi
      have hal : allocated A [.acquire_table, .acquire_entry k, .kfree pa, .release_entry k,
          .release_table] = A := by
        simp only [allocated, List.foldl_cons, List.foldl_nil, allocated_step]
        exact hA
      rw [hal]
      exact conserved_update_same_pa t A k neutral_entry h (by rw [hlive]; rfl)
    · have := conserved_update_free t A k h hlive
      rw [hpa] at this
      simpa [allocated, allocated_step] using this

theorem conserved_run (ops : List Op) :
    ∀ (t : Table) (A : List Nat), conserved t A → alloc_ok A (history t ops) →
      conserved (run t ops) (allocated A (history t ops)) := by
  induction ops with
  | nil => intro t A h _; simpa [run, history, allocated] using h
  | cons op rest ih =>
    intro t A h hok
    simp only [history] at hok ⊢
    rw [alloc_ok_append] at hok
    rw [allocated_append]
    exact ih (step t op) _ (conserved_step t A op h hok.1) hok.2

/-- In a table that agrees with the allocated pages, `kfree` is only called by
`release_shared_page`, with the handle it was given, when the count of the lowest-indexed
slot storing that handle drops to zero; a non-null handle freed this way is an allocated
page. -/
theorem kfree_only_last_reference (t : Table) (A : List Nat) (op : Op) (p : Nat)
    (h : conserved t A) (hp : p ∈ kfree_calls (trace_of t op)) :
    op = .release p ∧ (∃ k, (t k).pa = p ∧ (∀ j, j < k → (t j).pa ≠ p) ∧
      int32 ((t k).refcnt - 1) = 0) ∧ (p ≠ 0 → p ∈ A) := by
  rcases step_shape t op with ⟨_, htr | htr | ⟨k, htr⟩⟩ | ⟨k, _, _, htr⟩ |
    ⟨k, d, n, o, ka, _, _, _, _, htr⟩ | ⟨k, _, htr⟩ |
    ⟨k, pa, _, _, _, _, _, htr⟩ | ⟨k, pa, hop, hpa, hmin, hz, _, htr⟩
  · rw [htr] at hp; simp [kfree_calls] at hp
  · rw [htr] at hp; simp [kfree_calls] at hp
  · rw [htr] at hp; simp [kfree_calls] at hp
  · rw [htr] at hp; simp [kfree_calls] at hp
  · rw [htr] at hp; simp [kfree_calls] at hp
  · rw [htr] at hp; simp [kfree_calls] at hp
  · rw [htr] at hp; simp [kfree_calls] at hp
  · rw [htr] at hp
    simp [kfree_calls] at hp
    subst hp
    exact ⟨hop, ⟨k, hpa, hmin, hz⟩,
      fun hne => (h.2 p).2 ⟨k, by rw [hpa]; exact hne, hpa⟩⟩

/-- Page conservation for handles.  If the allocator only hands out pages that are not
currently allocated, then in the table reached from `shared_pages_init` by any sequence of the
four operations, distinct live slots hold distinct pages, the pages of live slots are exactly
the pages returned by the `kalloc` calls of `get_shared_page` and not freed since, and any
call made from that table that calls `kfree` is a `release_shared_page(p)`; when `p` is not
null it is a currently allocated page. -/
theorem pages_conserved (t0 : Table) (ops : List Op)
    (hok : alloc_ok [] (history (shared_pages_init t0) ops)) :
    (∀ i j, i ≠ j → (run (shared_pages_init t0) ops i).pa ≠ 0 →
      (run (shared_pages_init t0) ops j).pa ≠ 0 →
      (run (shared_pages_init t0) ops i).pa ≠ (run (shared_pages_init t0) ops j).pa) ∧
    (∀ p, p ∈ allocated [] (history (shared_pages_init t0) ops) ↔
      ∃ i, (run (shared_pages_init t0) ops i).pa ≠ 0 ∧
        (run (shared_pages_init t0) ops i).pa = p) ∧
    (∀ op p, p ∈ kfree_calls (trace_of (run (shared_pages_init t0) ops) op) →
      op = .release p ∧
      (p ≠ 0 → p ∈ allocated [] (history (shared_pages_init t0) ops))) := by
  have hc := conserved_run ops _ [] (conserved_init t0) hok
  refine ⟨hc.1, hc.2, ?_⟩
  intro op p hp
  obtain ⟨h1, _, h3⟩ := kfree_only_last_reference _ _ op p hc hp
  exact ⟨h1, h3⟩

/-! ## Releasing the null handle again and again -/

theorem run_append (t : Table) (l1 l2 : List Op) : run t (l1 ++ l2) = run (run t l1) l2 := by
  simp [run, List.foldl_append]

/-- After `n < 2^32` calls `release_shared_page(0)` on the freshly initialised table, free
slot 0 has the count `-n` reduced to 32 bits and nothing else has changed. -/
theorem null_release_run (n : Nat) (hn : n < 4294967296) :
    run (shared_pages_init zero_table) (List.replicate n (.release 0)) =
      Function.update (shared_pages_init zero_table) 0
        { dev := 0, inum := 0, offset := 0, pa := 0, refcnt := int32 (-(n : Int)),
          initialized := 0 } := by
  induction n with
  | zero =>
    funext j
    by_cases hj : j = 0
    · subst hj; simp [run, shared_pages_init, zero_table]
    · simp [run, Function.update_noteq hj]
  | succ n ih =>
    rw [List.replicate_succ', run_append, ih (by omega)]
    have hl : lookup_pa (Function.update (shared_pages_init zero_table) 0
        { dev := 0, inum := 0, offset := 0, pa := 0, refcnt := int32 (-(n : Int)),
          initialized := 0 }) 0 = some 0 := by
      rw [lookup_pa_eq_some_iff]
      refine ⟨by simp, ?_⟩
      intro j hj
      exact absurd hj (Fin.not_lt_zero j)
    have hz : int32 (((Function.update (shared_pages_init zero_table) 0
        { dev := 0, inum := 0, offset := 0, pa := 0, refcnt := int32 (-(n : Int)),
          initialized := 0 }) 0).refcnt - 1) ≠ 0 := by
      simp only [Function.update_same]
      unfold int32
      omega
    simp only [run, List.foldl_cons, List.foldl_nil, step]
    rw [release_shared_page_of_more _ 0 0 hl hz]
    simp only [Function.update_same, Function.update_idem]
    have e : int32 (int32 (-(n : Int)) - 1) = int32 (-((n + 1 : Nat) : Int)) := by
      unfold int32
      push_cast
      omega
    rw [e]

theorem alloc_ok_release (A : List Nat) (t : Table) (p : Nat) :
    alloc_ok A (trace_of t (.release p)) := by
  simp only [trace_of]
  unfold release_shared_page
  cases lookup_pa t p with
  | none => simp [alloc_ok]
  | some k =>
    simp only
    split <;> simp [alloc_ok]

theorem alloc_ok_release_history (p : Nat) (n : Nat) :
    ∀ (A : List Nat) (t : Table), alloc_ok A (history t (List.replicate n (.release p))) := by
  induction n with
  | zero => intro A t; simp [history, alloc_ok]
  | succ n ih =>
    intro A t
    rw [List.replicate_succ]
    simp only [history]
    rw [alloc_ok_append]
    exact ⟨alloc_ok_release A t p, ih _ _⟩

/-! ## Claims C11 to C20 -/

/-- C11, evaluation at the failing input. In the table left by `shared_pages_init` no live
entry holds the null handle, yet `release_shared_page(0)` matches free slot 0, takes its entry
lock and decrements its `refcnt` from 0 to -1, so the table is not what it was. -/
theorem release_null_handle_changes_table :
    (∀ i, ¬ ((shared_pages_init zero_table i).pa ≠ 0 ∧ (shared_pages_init zero_table i).pa = 0)) ∧
    (release_shared_page (shared_pages_init zero_table) 0).table 0 =
      { dev := 0, inum := 0, offset := 0, pa := 0, refcnt := -1, initialized := 0 } ∧
    (release_shared_page (shared_pages_init zero_table) 0).table 0 ≠
      shared_pages_init zero_table 0 ∧
    (release_shared_page (shared_pages_init zero_table) 0).trace =
      [.acquire_table, .acquire_entry 0, .release_entry 0, .release_table] := by
  refine ⟨by decide, by decide, by decide, by decide⟩

/-- C12, evaluation at the failing input. In `marked_null_table`, reached from
`shared_pages_init` by `mark_shared_page_initialized(0)`, no live entry holds the null handle,
yet `is_shared_page_initialized(0)` returns 1: the lookup matches free slot 0, whose flag the
mark call had set. -/
theorem is_initialized_null_handle_true :
    marked_null_table = run (shared_pages_init zero_table) [.mark 0] ∧
    (∀ i, ¬ ((marked_null_table i).pa ≠ 0 ∧ (marked_null_table i).pa = 0)) ∧
    (is_shared_page_initialized marked_null_table 0).ret = 1 := by
  refine ⟨rfl, by decide, by decide⟩

/-- C13. Idempotence of marking: for a handle `h` stored in a live entry, with `k` the
lowest-indexed slot storing `h`, `mark_shared_page_initialized(h)` applied twice gives exactly
the table of one application; that table is the original one with `initialized = 1` in slot
`k`, all other fields of slot `k` and all other slots being unchanged; and
`is_shared_page_initialized(h)` returns 1 on it. -/
theorem mark_idempotent (t : Table) (h : Nat) (hl : ∃ i, (t i).pa ≠ 0 ∧ (t i).pa = h) :
    (mark_shared_page_initialized (mark_shared_page_initialized t h).table h).table =
      (mark_shared_page_initialized t h).table ∧
    (∃ k, (t k).pa = h ∧ (∀ j, j < k → (t j).pa ≠ h) ∧
      (mark_shared_page_initialized t h).table k = { t k with initialized := 1 } ∧
      ∀ j, j ≠ k → (mark_shared_page_initialized t h).table j = t j) ∧
    (is_shared_page_initialized (mark_shared_page_initialized t h).table h).ret = 1 := by
  obtain ⟨i, _, hi⟩ := hl
  obtain ⟨k, hk⟩ := lookup_pa_exists t h ⟨i, hi⟩
  have hk2 := (lookup_pa_eq_some_iff t h k).1 hk
  rw [mark_shared_page_initialized_of_some t h k hk]
  simp only
  have hk3 : lookup_pa (Function.update t k { t k with initialized := 1 }) h = some k := by
    rw [lookup_pa_eq_some_iff]
    refine ⟨by simpa using hk2.1, ?_⟩
    intro j hj
    simp only [Function.update_noteq (ne_of_lt hj)]
    exact hk2.2 j hj
  refine ⟨?_, ⟨k, hk2.1, hk2.2, by simp, ?_⟩, ?_⟩
  · rw [mark_shared_page_initialized_of_some _ h k hk3]
    simp
  · intro j hj; simp [Function.update_noteq hj]
  · simp [is_shared_page_initialized, hk3]

/-- Witness for C13 on `sample_table`, whose slot 2 holds page 8192. -/
theorem mark_idempotent_witness :
    (∃ i, (sample_table i).pa ≠ 0 ∧ (sample_table i).pa = 8192) ∧
    (mark_shared_page_initialized (mark_shared_page_initialized sample_table 8192).table
      8192).table = (mark_shared_page_initialized sample_table 8192).table ∧
    (is_shared_page_initialized (mark_shared_page_initialized sample_table 8192).table
      8192).ret = 1 :=
  ⟨⟨2, by decide⟩, (mark_idempotent sample_table 8192 ⟨2, by decide⟩).1,
    (mark_idempotent sample_table 8192 ⟨2, by decide⟩).2.2⟩

/-- C14. No live entry has refcount 0, the reference count being read as an unbounded
integer (`run_unbounded`, `release_shared_page_unbounded`): in every table reached from
`shared_pages_init` by any sequence of the four operations, with any arguments and any
allocator answers, every slot with a non-null `pa` has `refcnt ≥ 1`; and in any table, a slot
that `release_shared_page` changes and leaves with `refcnt = 0` is reset to the neutral
contents in that same call, which calls `kfree` exactly once, with the page the slot held.
The last part is also stated for the 32-bit `release_shared_page`. -/
theorem live_refcount_positive (t0 : Table) (ops : List Op) :
    (∀ i, (run_unbounded (shared_pages_init t0) ops i).pa ≠ 0 →
      1 ≤ (run_unbounded (shared_pages_init t0) ops i).refcnt) ∧
    (∀ (t : Table) (pa : Nat) (j : Fin 64), (release_shared_page_unbounded t pa).table j ≠ t j →
      ((release_shared_page_unbounded t pa).table j).refcnt = 0 →
      (release_shared_page_unbounded t pa).table j = neutral_entry ∧
      kfree_calls (release_shared_page_unbounded t pa).trace = [(t j).pa]) ∧
    (∀ (t : Table) (pa : Nat) (j : Fin 64), (release_shared_page t pa).table j ≠ t j →
      ((release_shared_page t pa).table j).refcnt = 0 →
      (release_shared_page t pa).table j = neutral_entry ∧
      kfree_calls (release_shared_page t pa).trace = [(t j).pa]) := by
  refine ⟨?_, ?_, ?_⟩
  · apply live_counted_run
    intro i hi
    exact absurd rfl hi
  · intro t pa j
    cases hl : lookup_pa t pa with
    | none =>
      rw [release_shared_page_unbounded_of_none t pa hl]
      intro hne; exact absurd rfl hne
    | some k =>
      by_cases hz : (t k).refcnt - 1 = 0
      · rw [release_shared_page_unbounded_of_last t pa k hl hz]
        simp only
        by_cases hj : j = k
        · subst hj
          intro _ _
          simp [neutral_entry, hz, kfree_calls]
        · intro hne
          exact absurd (Function.update_noteq hj _ _) hne
      · rw [release_shared_page_unbounded_of_more t pa k hl hz]
        simp only
        by_cases hj : j = k
        · subst hj
          intro _ h0
          simp only [Function.update_same] at h0
          exact absurd h0 hz
        · intro hne
          exact absurd (Function.update_noteq hj _ _) hne
  · intro t pa j
    cases hl : lookup_pa t pa with
    | none =>
      rw [release_shared_page_of_none t pa hl]
      intro hne; exact absurd rfl hne
    | some k =>
      by_cases hz : int32 ((t k).refcnt - 1) = 0
      · rw [release_shared_page_of_last t pa k hl hz]
        simp only
        by_cases hj : j = k
        · subst hj
          intro _ _
          simp [neutral_entry, hz, kfree_calls]
        · intro hne
          exact absurd (Function.update_noteq hj _ _) hne
      · rw [release_shared_page_of_more t pa k hl hz]
        simp only
        by_cases hj : j = k
        · subst hj
          intro _ h0
          simp only [Function.update_same] at h0
          exact absurd h0 hz
        · intro hne
          exact absurd (Function.update_noteq hj _ _) hne

/-- C15. `initialized` is monotonic while live: for every table, every single call of the
four operations with any arguments, and every slot, if the slot is live with a non-zero
`initialized` before the call and is still live after it, then its `initialized` is still
non-zero and its `pa`, `dev`, `inum` and `offset` are unchanged. -/
theorem initialized_monotonic (t : Table) (op : Op) (j : Fin 64)
    (hlive : (t j).pa ≠ 0) (hinit : (t j).initialized ≠ 0) (hafter : (step t op j).pa ≠ 0) :
    (step t op j).initialized ≠ 0 ∧ (step t op j).pa = (t j).pa ∧
      (step t op j).dev = (t j).dev ∧ (step t op j).inum = (t j).inum ∧
      (step t op j).offset = (t j).offset := by
  rcases step_shape t op with ⟨he, _⟩ | ⟨k, _, he, _⟩ | ⟨k, d, n, o, ka, hk0, _, _, he, _⟩ |
    ⟨k, he, _⟩ | ⟨k, pa, _, _, _, _, he, _⟩ | ⟨k, pa, _, _, _, _, he, _⟩
  · rw [he]; exact ⟨hinit, rfl, rfl, rfl, rfl⟩
  · rw [he]
    by_cases hj : j = k
    · subst hj; simp [hinit]
    · simp [Function.update_noteq hj, hinit]
  · rw [he]
    by_cases hj : j = k
    · subst hj; exact absurd hk0 hlive
    · simp [Function.update_noteq hj, hinit]
  · rw [he]
    by_cases hj : j = k
    · subst hj; simp
    · simp [Function.update_noteq hj, hinit]
  · rw [he]
    by_cases hj : j = k
    · subst hj; simp [hinit]
    · simp [Function.update_noteq hj, hinit]
  · rw [he] at hafter ⊢
    by_cases hj : j = k
    · subst hj
      simp [neutral_entry] at hafter
    · simp [Function.update_noteq hj, hinit]

/-- Witness for C15: slot 2 of `sample_table` is live and initialised, and stays live when one
of its two references is released. -/
theorem initialized_monotonic_witness :
    (sample_table 2).pa ≠ 0 ∧ (sample_table 2).initialized ≠ 0 ∧
    (step sample_table (.release 8192) 2).pa ≠ 0 ∧
    (step sample_table (.release 8192) 2).initialized ≠ 0 ∧
    (step sample_table (.release 8192) 2).pa = (sample_table 2).pa ∧
    (step sample_table (.release 8192) 2).dev = (sample_table 2).dev ∧
    (step sample_table (.release 8192) 2).inum = (sample_table 2).inum ∧
    (step sample_table (.release 8192) 2).offset = (sample_table 2).offset :=
  ⟨by decide, by decide, by decide,
    initialized_monotonic sample_table (.release 8192) 2 (by decide) (by decide) (by decide)⟩

/-- C16, counterexample. In `sample_table` the entry for `(5, 12, 4096)` has refcount 2 and
handle 8192.  After two `release_shared_page(8192)` calls the entry is freed, and a following
`get_shared_page(5, 12, 4096)` to which `kalloc` hands the page 8192 just freed succeeds and
returns 8192 again: the new handle is not different from the old one.  In
`shared_page_table`, where slot 0 stores the same page 8192 for another identity, one
`release_shared_page(8192)` leaves the entry for `(5, 12, 4096)` at refcount 2, not 1. -/
theorem reuse_may_return_same_handle :
    (has_identity (sample_table 2) 5 12 4096 ∧ (sample_table 2).refcnt = 2 ∧
      (sample_table 2).pa = 8192 ∧
      (∀ j, (run sample_table [.release 8192, .release 8192] j).pa = 0) ∧
      kfree_calls (history sample_table [.release 8192, .release 8192]) = [8192] ∧
      kalloc_calls (get_shared_page 8192 (run sample_table [.release 8192, .release 8192])
        5 12 4096).trace = [8192] ∧
      (get_shared_page 8192 (run sample_table [.release 8192, .release 8192])
        5 12 4096).ret = 8192) ∧
    (has_identity (shared_page_table 2) 5 12 4096 ∧ (shared_page_table 2).refcnt = 2 ∧
      (shared_page_table 2).pa = 8192 ∧
      ((release_shared_page shared_page_table 8192).table 2).refcnt = 2) := by
  refine ⟨⟨by decide, by decide, by decide, by decide, by decide, by decide, by decide⟩,
    ⟨by decide, by decide, by decide, by decide⟩⟩

/-- C16, amended. For every identity `(d, i, o)` and every table in which slot `k` is the
only live entry of `(d, i, o)`, with refcount 2 and a handle `h` stored in no other slot: one
`release_shared_page(h)` leaves slot `k` live with refcount 1 and calls no `kfree`; a second
one calls `kfree(h)` once and resets slot `k`, every other slot being as in the beginning; and
a following `get_shared_page(d, i, o)` that succeeds has called `kalloc`, returns the page
`ka` that `kalloc` handed out (which may be `h` again) and leaves a slot that was free with
the identity, `pa = ka`, `refcnt = 1` and `initialized = 0`. -/
theorem reuse_after_last_release (t : Table) (d i o h ka : Nat) (k : Fin 64)
    (hk : holds_entry t d i o h 2 k)
    (hsucc : (get_shared_page ka
      (release_shared_page (release_shared_page t h).table h).table d i o).ret ≠ 0) :
    (has_identity ((release_shared_page t h).table k) d i o ∧
      ((release_shared_page t h).table k).pa = h ∧
      ((release_shared_page t h).table k).refcnt = 1 ∧
      kfree_calls (release_shared_page t h).trace = []) ∧
    ((release_shared_page (release_shared_page t h).table h).table k = neutral_entry ∧
      (∀ j, j ≠ k →
        (release_shared_page (release_shared_page t h).table h).table j = t j) ∧
      kfree_calls (release_shared_page (release_shared_page t h).table h).trace = [h]) ∧
    ((get_shared_page ka
        (release_shared_page (release_shared_page t h).table h).table d i o).ret = ka ∧
      kalloc_calls (get_shared_page ka
        (release_shared_page (release_shared_page t h).table h).table d i o).trace = [ka] ∧
      ∃ m, ((release_shared_page (release_shared_page t h).table h).table m).pa = 0 ∧
        (get_shared_page ka
          (release_shared_page (release_shared_page t h).table h).table d i o).table m =
          { dev := d, inum := i, offset := o, pa := ka, refcnt := 1, initialized := 0 }) := by
  obtain ⟨hid, hpa, hc, hoth⟩ := hk
  have hl : lookup_pa t h = some k := by
    rw [lookup_pa_eq_some_iff]
    exact ⟨hpa, fun j hj => (hoth j (ne_of_lt hj)).1⟩
  have e1 : int32 ((t k).refcnt - 1) = 1 := by rw [hc]; decide
  have hz1 : int32 ((t k).refcnt - 1) ≠ 0 := by rw [e1]; decide
  rw [release_shared_page_of_more t h k hl hz1] at hsucc ⊢
  simp only at hsucc ⊢
  rw [e1] at hsucc ⊢
  have hl2 : lookup_pa (Function.update t k { t k with refcnt := 1 }) h = some k := by
    rw [lookup_pa_eq_some_iff]
    refine ⟨by simpa using hpa, ?_⟩
    intro j hj
    simp only [Function.update_noteq (ne_of_lt hj)]
    exact (hoth j (ne_of_lt hj)).1
  have hz2 : int32 (((Function.update t k { t k with refcnt := 1 }) k).refcnt - 1) = 0 := by
    simp
  rw [release_shared_page_of_last _ h k hl2 hz2] at hsucc ⊢
  simp only [Function.update_same, Function.update_idem] at hsucc ⊢
  have hneutral : shared_page_entry.mk 0 0 0 0 (int32 (1 - 1)) 0 = neutral_entry := by
    simp [neutral_entry]
  rw [hneutral] at hsucc ⊢
  have hf : find_shared_page (Function.update t k neutral_entry) d i o = none := by
    rw [find_shared_page_eq_none_iff]
    intro j hj
    by_cases hjk : j = k
    · subst hjk
      rw [Function.update_same] at hj
      exact hj.1 rfl
    · rw [Function.update_noteq hjk] at hj
      exact (hoth j hjk).2 hj
  obtain ⟨m, hm⟩ := alloc_shared_page_entry_exists (Function.update t k neutral_entry)
    ⟨k, by simp [neutral_entry]⟩
  have hm2 := (alloc_shared_page_entry_eq_some_iff _ m).1 hm
  have hka : ka ≠ 0 := by
    intro e
    subst e
    rw [get_shared_page_of_nomem _ d i o m hf hm] at hsucc
    exact hsucc rfl
  rw [get_shared_page_of_alloc ka _ d i o m hf hm hka]
  refine ⟨⟨?_, by simpa using hpa, by simp [hc], by simp [kfree_calls]⟩,
    ⟨by simp, ?_, by simp [kfree_calls, hpa]⟩, ⟨rfl, by simp [kalloc_calls], m, hm2.1, by simp⟩⟩
  · simpa [has_identity] using hid
  · intro j hj; simp [Function.update_noteq hj]

/-- Witness for C16 (amended) on `sample_table`, with `kalloc` handing out 8192 again. -/
theorem reuse_after_last_release_witness :
    holds_entry sample_table 5 12 4096 8192 2 2 ∧
    (get_shared_page 8192
      (release_shared_page (release_shared_page sample_table 8192).table 8192).table
      5 12 4096).ret ≠ 0 ∧
    ((release_shared_page sample_table 8192).table 2).refcnt = 1 ∧
    (release_shared_page (release_shared_page sample_table 8192).table 8192).table 2
      = neutral_entry ∧
    (get_shared_page 8192
      (release_shared_page (release_shared_page sample_table 8192).table 8192).table
      5 12 4096).ret = 8192 :=
  have hk : holds_entry sample_table 5 12 4096 8192 2 2 :=
    ⟨by decide, by decide, by decide, by decide⟩
  ⟨hk, by decide,
    (reuse_after_last_release sample_table 5 12 4096 8192 8192 2 hk (by decide)).1.2.2.1,
    (reuse_after_last_release sample_table 5 12 4096 8192 8192 2 hk (by decide)).2.1.1,
    (reuse_after_last_release sample_table 5 12 4096 8192 8192 2 hk (by decide)).2.2.1⟩

/-- C17, counterexample. Run on `sample_table`, whose slot 2 holds identity `(5, 12, 4096)`,
`shared_pages_init` leaves `dev = 5`, `inum = 12` and `offset = 4096` in slot 2: the identity
fields are not reset to 0. -/
theorem init_keeps_identity_fields :
    (shared_pages_init sample_table 2).dev = 5 ∧
    (shared_pages_init sample_table 2).inum = 12 ∧
    (shared_pages_init sample_table 2).offset = 4096 ∧
    ¬ ((shared_pages_init sample_table 2).dev = 0 ∧
       (shared_pages_init sample_table 2).inum = 0 ∧
       (shared_pages_init sample_table 2).offset = 0) := by
  refine ⟨by decide, by decide, by decide, by decide⟩

/-- C17, amended. For every prior contents of the table, after `shared_pages_init` every slot
has `pa = 0`, `refcnt = 0` and `initialized = 0`, and its `dev`, `inum` and `offset` are what
they were before the call; on zeroed storage every slot therefore ends with the neutral
contents. -/
theorem shared_pages_init_spec (t0 : Table) (i : Fin 64) :
    (shared_pages_init t0 i).pa = 0 ∧ (shared_pages_init t0 i).refcnt = 0 ∧
    (shared_pages_init t0 i).initialized = 0 ∧
    (shared_pages_init t0 i).dev = (t0 i).dev ∧
    (shared_pages_init t0 i).inum = (t0 i).inum ∧
    (shared_pages_init t0 i).offset = (t0 i).offset ∧
    shared_pages_init zero_table i = neutral_entry :=
  ⟨rfl, rfl, rfl, rfl, rfl, rfl, rfl⟩

/-- C18. Locking discipline of each operation, on every control path: for every table and
every call of `get_shared_page`, `mark_shared_page_initialized`,
`is_shared_page_initialized` or `release_shared_page`, the first event of the trace takes the
table lock, the table lock is taken exactly once, an entry lock is only taken while the table
lock is held and no other entry lock is held, an entry lock is released before the table
lock is, and no lock is held when the call returns. -/
theorem lock_discipline_holds (t : Table) (op : Op) : lock_discipline (trace_of t op) := by
  rcases step_shape t op with ⟨_, htr | htr | ⟨k, htr⟩⟩ | ⟨k, _, _, htr⟩ |
    ⟨k, d, n, o, ka, _, _, _, _, htr⟩ | ⟨k, _, htr⟩ | ⟨k, pa, _, _, _, _, _, htr⟩ |
    ⟨k, pa, _, _, _, _, _, htr⟩ <;>
  · rw [htr]
    simp [lock_discipline, lock_run, lock_step, List.count_cons]

/-- C19, evaluation at the failing input. From `shared_pages_init` on zeroed storage,
4294967295 calls `release_shared_page(0)` (no `kalloc` call is made, so the allocator
assumption holds) lead to `null_release_table`, in which no slot is live and free slot 0 has
`refcnt = 1`: each call matched free slot 0 and decremented its 32-bit count, which wrapped
round.  One more `release_shared_page(0)` then calls `kfree(0)`: `kfree` is called with the
null handle, which is the handle of no live entry. -/
theorem release_null_reaches_kfree_null :
    alloc_ok [] (history (shared_pages_init zero_table)
      (List.replicate 4294967295 (.release 0))) ∧
    (∀ i, (null_release_table i).pa = 0) ∧
    (null_release_table 0).refcnt = 1 ∧
    kfree_calls (trace_of null_release_table (.release 0)) = [0] := by
  have h : null_release_table =
      Function.update (shared_pages_init zero_table) 0
        { dev := 0, inum := 0, offset := 0, pa := 0,
          refcnt := int32 (-((4294967295 : Nat) : Int)), initialized := 0 } :=
    null_release_run 4294967295 (by decide)
  refine ⟨alloc_ok_release_history 0 4294967295 [] _, ?_, ?_, ?_⟩
  · rw [h]; decide
  · rw [h]; decide
  · rw [h]; decide

/-- C20. A stale non-null handle is benign: for every table and every non-null handle `h`
stored in no slot, `release_shared_page(h)` and
`mark_shared_page_initialized(h)` leave the whole table unchanged and call neither `kalloc`
nor `kfree`, and `is_shared_page_initialized(h)` returns 0 and leaves the table unchanged. -/
theorem stale_handle_benign (t : Table) (h : Nat) (hnz : h ≠ 0) (hs : ∀ i, (t i).pa ≠ h) :
    (release_shared_page t h).table = t ∧
    kalloc_calls (release_shared_page t h).trace = [] ∧
    kfree_calls (release_shared_page t h).trace = [] ∧
    (mark_shared_page_initialized t h).table = t ∧
    kalloc_calls (mark_shared_page_initialized t h).trace = [] ∧
    kfree_calls (mark_shared_page_initialized t h).trace = [] ∧
    (is_shared_page_initialized t h).ret = 0 ∧
    (is_shared_page_initialized t h).table = t ∧
    kalloc_calls (is_shared_page_initialized t h).trace = [] ∧
    kfree_calls (is_shared_page_initialized t h).trace = [] := by
  have _ := hnz
  have hl := (lookup_pa_eq_none_iff t h).2 hs
  rw [release_shared_page_of_none t h hl, mark_shared_page_initialized_of_none t h hl]
  refine ⟨rfl, rfl, rfl, rfl, rfl, rfl, ?_, is_shared_page_initialized_table t h, ?_, ?_⟩
  · simp [is_shared_page_initialized, hl]
  · simp [is_shared_page_initialized, hl, kalloc_calls]
  · simp [is_shared_page_initialized, hl, kfree_calls]

/-- Witness for C20: page 12288 is stored in no slot of `sample_table`. -/
theorem stale_handle_benign_witness :
    (12288 : Nat) ≠ 0 ∧ (∀ i, (sample_table i).pa ≠ 12288) ∧
    (release_shared_page sample_table 12288).table = sample_table ∧
    (mark_shared_page_initialized sample_table 12288).table = sample_table ∧
    (is_shared_page_initialized sample_table 12288).ret = 0 :=
  ⟨by decide, by decide,
    (stale_handle_benign sample_table 12288 (by decide) (by decide)).1,
    (stale_handle_benign sample_table 12288 (by decide) (by decide)).2.2.2.1,
    (stale_handle_benign sample_table 12288 (by decide) (by decide)).2.2.2.2.2.2.1⟩

end SharedPages
